import Mathlib

/-!
# Verification of the hawki-model-repository reconciliation core

This file gives a shallow embedding of the reconciliation engine of the
hawki-model-repository project and proofs of the behavioural claims about
it.  The definitions are translated from the TypeScript sources:

* `deduplicateProviders` and `deduplicateModels` from
  `src/.github/.generate/src/sources/deduplicateModels.ts`;
* `processor` and `calculateModelHash` from
  `src/.github/.generate/src/processing/processor.ts`;
* the data model from `src/.github/.generate/src/sources/types.ts` and
  `src/.github/.generate/src/types.ts`.

Modelling boundaries (stated once here, relied on below):
* `sha256(JSON.stringify(...))` of the canonicalized model copy is
  injective on the records we model, so the hash value is represented by
  the canonicalized record itself; hash equality coincides with equality
  of the canonicalized serializations.
* JavaScript's default string sort and `localeCompare` orderings are
  modelled by code-point order (`strLe`); no claim depends on the precise
  collation, only on determinism of the sort.
* `parseFloat` on the price strings is modelled by `parseDec`, which
  parses an optional sign, an integer part and a decimal fraction and
  returns `none` where `parseFloat` returns `NaN` (exponents and
  `Infinity` are outside the inputs produced by the sources, which build
  prices with `toFixed(2)`).
* `new Date(...)` comparison of knowledge-cutoff strings is modelled by
  lexicographic order, which agrees with it on the ISO-8601 strings the
  schema documents.
* `new Date().toISOString()` is an input: the processor takes the current
  timestamp as an explicit `now` argument.
* enrichment steps are `async` and take an options/cache argument; the
  embedding models them as pure functions of the data arguments and logs
  each invocation in an event list, so claims about which steps run on
  which model are statable.

All string manipulation is implemented over `List Char` so that every
definition evaluates inside the kernel on concrete inputs.
-/

namespace HawkiModels

/-- Lowercased character list of a string (kernel-computable `toLowerCase`). -/
def lowerChars (s : String) : List Char :=
  s.toList.map Char.toLower

/-- `strEndsWithCI s t`: does `s.toLowerCase()` end with `t` (used for the
`":free"` suffix test at deduplicateModels.ts:12)? -/
def strEndsWithCI (s t : String) : Bool :=
  decide ((lowerChars s).reverse.take t.toList.length = t.toList.reverse)

/-- Character count of a string (kernel-computable `String.length`). -/
def strLen (s : String) : Nat :=
  s.toList.length

/-- `strStartsWith s t`: is `t` a prefix of `s` (JavaScript
`s.startsWith(t)`)? -/
def strStartsWith (s t : String) : Bool :=
  t.toList.isPrefixOf s.toList

/-- Drop the last `n` characters of a string (`s.slice(0, -n)`). -/
def strDropRight (s : String) (n : Nat) : String :=
  String.mk (s.toList.take (s.toList.length - n))

/-- Lexicographic comparison of character lists by code point. -/
def charsLe : List Char → List Char → Bool
  | [], _ => true
  | _ :: _, [] => false
  | a :: as, b :: bs =>
      if a = b then charsLe as bs else decide (a.toNat < b.toNat)

/-- Lexicographic `≤` on strings by code point (stands in for JavaScript's
default string comparison and for `localeCompare`; see the header). -/
def strLe (a b : String) : Bool :=
  charsLe a.toList b.toList

/-- Strict version of `strLe`. -/
def strLt (a b : String) : Bool :=
  strLe a b && !(decide (a = b))

/-- Numeric value of a digit list, as a rational. -/
def digitsVal (ds : List Char) : ℚ :=
  ds.foldl (fun acc c => acc * 10 + (c.toNat - 48 : ℕ)) 0

/-- Value of a fractional digit list (the part after the decimal point). -/
def fracVal (ds : List Char) : ℚ :=
  digitsVal ds / (10 ^ ds.length)

/-- Parse an unsigned decimal: `digits`, `digits.`, `digits.digits` or
`.digits`; `none` when no digit is found. -/
def parseUnsigned (cs : List Char) : Option ℚ :=
  let ip := cs.takeWhile Char.isDigit
  let rest := cs.dropWhile Char.isDigit
  match ip, rest with
  | [], '.' :: rest2 =>
      let fp := rest2.takeWhile Char.isDigit
      if fp.isEmpty then none else some (fracVal fp)
  | [], _ => none
  | _, '.' :: rest2 =>
      let fp := rest2.takeWhile Char.isDigit
      some (digitsVal ip + fracVal fp)
  | _, _ => some (digitsVal ip)

/-- Model of JavaScript `parseFloat` on the price strings: optional sign,
then an unsigned decimal taken from the longest valid prefix; `none`
corresponds to `NaN`.  (Exponents, `Infinity` and leading whitespace are
outside the strings the sources produce; see the header.) -/
def parseDec (s : String) : Option ℚ :=
  match s.toList with
  | '-' :: rest => (parseUnsigned rest).map Neg.neg
  | '+' :: rest => parseUnsigned rest
  | cs => parseUnsigned cs

/-! ## Source data model (`src/sources/types.ts`)

`price.input` / `price.output` are decimal strings ("price per 1M tokens")
and stay strings through the merge; the limits are JavaScript numbers
(integral token counts, with `-1` used as a sentinel by the openRouter
source), modelled as `Int`. -/

/-- The `price` object of one provider offering. -/
structure PriceInformation where
  currency : String
  input : Option String
  output : Option String
  deriving DecidableEq, Repr

/-- `ModelInformationOfProvider`: one provider's view of one model. -/
structure ModelInformationOfProvider where
  providerId : String
  providerName : Option String
  contextLength : Option Int
  inputLimit : Option Int
  outputLimit : Option Int
  price : Option PriceInformation
  deriving DecidableEq, Repr

/-- `ModelInformation`: the normalized source model record.  Optional
record fields (`parameters`, `defaultParameters`, `freeProviders`) are
modelled as lists, with absence conflated with emptiness — the code reads
them only through `?? []`-style coalescing or spreads. -/
structure ModelInformation where
  id : String
  aliases : List String
  name : String
  description : String
  input : List String
  output : List String
  reasoning : Option Bool
  toolCalling : Option Bool
  openWeights : Option Bool
  knowledge : Option String
  parameters : List String
  defaultParameters : List (String × String)
  providers : List ModelInformationOfProvider
  freeProviders : List ModelInformationOfProvider
  deriving DecidableEq, Repr

/-! ## `deduplicateProviders` (deduplicateModels.ts:108-177) -/

/-- `p.price?.currency === provider.price?.currency`
(deduplicateModels.ts:113): equal currencies, or both prices absent. -/
def sameCurrency (a b : Option PriceInformation) : Bool :=
  match a, b with
  | some p, some q => p.currency == q.currency
  | none, none => true
  | _, _ => false

/-- The provider-name overlap test (deduplicateModels.ts:116-117): one
name is a prefix of the other and the prefix is longer than 5 characters.
The code's truthiness guards on the names are subsumed: an absent name
never matches, and an empty-string name can neither exceed length 5 nor
have a string of length over 5 as a prefix. -/
def namesOverlap (a b : Option String) : Bool :=
  match a, b with
  | some x, some y =>
      (decide (5 < strLen x) && strStartsWith y x)
      || (decide (5 < strLen y) && strStartsWith x y)
  | _, _ => false

/-- The "same provider" test of the `deduplicated.find` call
(deduplicateModels.ts:112-119). -/
def sameProviderOffering (e o : ModelInformationOfProvider) : Bool :=
  sameCurrency e.price o.price
    && (e.providerId == o.providerId || namesOverlap e.providerName o.providerName)

/-- The limit merge (deduplicateModels.ts:133-151): an incoming defined
value replaces the existing one when the existing is undefined or the
incoming is strictly smaller — i.e. the minimum of the known values,
existing kept on ties. -/
def mergeMinInt : Option Int → Option Int → Option Int
  | some x, some y => if y < x then some y else some x
  | some x, none => some x
  | none, b => b

/-- The providerName merge (deduplicateModels.ts:128-130): an incoming
truthy (non-empty) name replaces the existing one when the existing is
falsy (absent or empty) or strictly shorter. -/
def mergeName (ex inc : Option String) : Option String :=
  match inc with
  | none => ex
  | some y =>
      if y == "" then ex
      else
        match ex with
        | none => some y
        | some x => if x == "" || decide (strLen x < strLen y) then some y else some x

/-- `parseFloat(inc) > parseFloat(ex)` (deduplicateModels.ts:161,166):
false whenever either side parses to `NaN`. -/
def parseGt (inc ex : String) : Bool :=
  match parseDec inc, parseDec ex with
  | some x, some y => decide (y < x)
  | _, _ => false

/-- One price field's merge (deduplicateModels.ts:160-169): an incoming
defined string replaces the existing one when the existing is undefined or
the incoming parses strictly greater. -/
def mergePriceVal (ex inc : Option String) : Option String :=
  match inc with
  | none => ex
  | some b =>
      match ex with
      | none => some b
      | some a => if parseGt b a then some b else some a

/-- The price-object merge (deduplicateModels.ts:154-170): nothing happens
without an incoming price; an existing price keeps its currency and takes
the field-wise `mergePriceVal`; with no existing price a fresh object with
the incoming currency is filled from the incoming fields. -/
def mergePrice (ex inc : Option PriceInformation) : Option PriceInformation :=
  match inc with
  | none => ex
  | some q =>
      match ex with
      | none => some q
      | some p =>
          some { currency := p.currency
                 input := mergePriceVal p.input q.input
                 output := mergePriceVal p.output q.output }

/-- The in-place merge of an incoming offering into the matching existing
offering (deduplicateModels.ts:121-170): shorter `providerId` (ties keep
existing), `mergeName`, minimum of known limits, maximum of known prices
under `parseFloat`. -/
def mergeOffering (e o : ModelInformationOfProvider) : ModelInformationOfProvider :=
  { providerId := if strLen o.providerId < strLen e.providerId then o.providerId else e.providerId
    providerName := mergeName e.providerName o.providerName
    contextLength := mergeMinInt e.contextLength o.contextLength
    inputLimit := mergeMinInt e.inputLimit o.inputLimit
    outputLimit := mergeMinInt e.outputLimit o.outputLimit
    price := mergePrice e.price o.price }

/-- One iteration of the `for (const provider of providers)` loop: merge
into the first matching entry of the output list, else push unchanged. -/
def insertOffering : List ModelInformationOfProvider → ModelInformationOfProvider →
    List ModelInformationOfProvider
  | [], o => [o]
  | e :: rest, o =>
      if sameProviderOffering e o then mergeOffering e o :: rest
      else e :: insertOffering rest o

/-- `deduplicateProviders` (deduplicateModels.ts:108-177): fold the input
offerings, in order, into an incrementally built output list. -/
def deduplicateProviders (offerings : List ModelInformationOfProvider) :
    List ModelInformationOfProvider :=
  offerings.foldl insertOffering []

/-! ## `deduplicateModels` (deduplicateModels.ts:3-90) -/

/-- `Array.from(new Set(xs))`: first-occurrence deduplication, preserving
insertion order (JavaScript `Set` semantics; case-SENSITIVE).  `seen`
accumulates the values already emitted. -/
def dedupCSAux : List String → List String → List String
  | _, [] => []
  | seen, x :: xs =>
      if decide (x ∈ seen) then dedupCSAux seen xs
      else x :: dedupCSAux (x :: seen) xs

/-- `Array.from(new Set(xs))`. -/
def dedupCS (xs : List String) : List String :=
  dedupCSAux [] xs

/-- Insertion step of the stable sort by descending string length
(`.sort((a, b) => b.length - a.length)`, deduplicateModels.ts:28):
the inserted element goes before the first entry of smaller-or-equal
length it was originally ahead of. -/
def insertByLen (x : String) : List String → List String
  | [] => [x]
  | y :: ys => if strLen y ≤ strLen x then x :: y :: ys else y :: insertByLen x ys

/-- Stable insertion sort by descending string length. -/
def sortByLen : List String → List String
  | [] => []
  | x :: xs => insertByLen x (sortByLen xs)

/-- The merged alias list (deduplicateModels.ts:27-28):
`Array.from(new Set([...existing.aliases, ...model.aliases]))` sorted by
descending length. -/
def mergeAliases (a b : List String) : List String :=
  sortByLen (dedupCS (a ++ b))

/-- The set-equality test used for the modality/parameter merges
(deduplicateModels.ts:41-57): equal sizes and every element of the first
set contained in the second. -/
def sameSet (a b : List String) : Bool :=
  decide ((dedupCS a).length = (dedupCS b).length) && a.all (fun x => decide (x ∈ b))

/-- The modality/parameter merge: union only when the two sets differ,
otherwise the existing list is left untouched. -/
def mergeSet (a b : List String) : List String :=
  if sameSet a b then a else dedupCS (a ++ b)

/-- The `defaultParameters` merge (deduplicateModels.ts:60-65):
`{...model.defaultParameters, ...existing.defaultParameters}` — the
incoming keys in order with existing values winning on collisions,
followed by the existing-only keys. -/
def mergeDefaults (ex mo : List (String × String)) : List (String × String) :=
  mo.map (fun kv =>
      match (ex.find? (fun e => e.fst == kv.fst)) with
      | some e => (kv.fst, e.snd)
      | none => kv)
    ++ ex.filter (fun e => !(decide (e.fst ∈ mo.map Prod.fst)))

/-- The tri-state flag merge (deduplicateModels.ts:67-75): `false` in
either operand forces `false`; otherwise an undefined existing value takes
the incoming one, and a defined existing value is kept. -/
def mergeFlag : Option Bool → Option Bool → Option Bool
  | some false, _ => some false
  | _, some false => some false
  | some b, _ => some b
  | none, b => b

/-- The knowledge-cutoff merge (deduplicateModels.ts:77-86): with both
dates known keep the earlier (strictly earlier incoming replaces); an
unknown existing date takes the incoming one; the incoming never erases a
known date.  Date order is modelled lexicographically (ISO strings). -/
def mergeKnowledge : Option String → Option String → Option String
  | some a, some b => if strLt b a then some b else some a
  | some a, none => some a
  | none, b => b

/-- `makeIdComparable` (deduplicateModels.ts:4-5): lowercase and strip
every character outside `[a-z0-9]`. -/
def comparableKey (id : String) : String :=
  String.mk ((lowerChars id).filter Char.isAlphanum)

/-- `model.id.toLowerCase().endsWith(':free')` (deduplicateModels.ts:12). -/
def hasFreeSuffix (id : String) : Bool :=
  strEndsWithCI id ":free"

/-- The free-tier preprocessing (deduplicateModels.ts:12-16): strip the
suffix from the id and push the stripped id onto the aliases; the Boolean
is `isFreeModel`. -/
def preprocessModel (m : ModelInformation) : ModelInformation × Bool :=
  if hasFreeSuffix m.id then
    ({ m with id := strDropRight m.id 5, aliases := m.aliases ++ [strDropRight m.id 5] }, true)
  else (m, false)

/-- The in-place merge of a later class member `m` into the stored class
representative `t` (deduplicateModels.ts:24-86).  A free-tier member's
offerings go through `deduplicateProviders` into `freeProviders`
(recomputed over the concatenation, the member's own `freeProviders`
ignored); a non-free member's offerings likewise into `providers`. -/
def mergeModel (t m : ModelInformation) (free : Bool) : ModelInformation :=
  { t with
    aliases := mergeAliases t.aliases m.aliases
    providers :=
      if free then t.providers else deduplicateProviders (t.providers ++ m.providers)
    freeProviders :=
      if free then deduplicateProviders (t.freeProviders ++ m.providers) else t.freeProviders
    description :=
      if t.description == "" && !(m.description == "") then m.description else t.description
    input := mergeSet t.input m.input
    output := mergeSet t.output m.output
    parameters := mergeSet t.parameters m.parameters
    defaultParameters := mergeDefaults t.defaultParameters m.defaultParameters
    openWeights := mergeFlag t.openWeights m.openWeights
    reasoning := mergeFlag t.reasoning m.reasoning
    toolCalling := mergeFlag t.toolCalling m.toolCalling
    knowledge := mergeKnowledge t.knowledge m.knowledge }

/-- One step of the `modelsById` map update: a model whose comparison key
is new is stored AS-IS (deduplicateModels.ts:19-21); a model whose key is
already present is merged into the stored representative.  The list models
the `Map`'s insertion order. -/
def insertModel : List ModelInformation → ModelInformation → Bool → List ModelInformation
  | [], m, _ => [m]
  | t :: rest, m, free =>
      if comparableKey t.id == comparableKey m.id then mergeModel t m free :: rest
      else t :: insertModel rest m free

/-- One iteration of the main loop: preprocess, then store or merge. -/
def dedupStep (acc : List ModelInformation) (m : ModelInformation) : List ModelInformation :=
  insertModel acc (preprocessModel m).1 (preprocessModel m).2

/-- `deduplicateModels` (deduplicateModels.ts:3-90): group the input
models by comparison key in input order; the first model per key is stored
as the representative and every later member of its class is merged into
it; the result is the map's values in insertion order. -/
def deduplicateModels (models : List ModelInformation) : List ModelInformation :=
  models.foldl dedupStep []

/-! ## Processed data model (`src/types.ts`) -/

/-- `ProcessedModelProviderInformation`: a provider offering after
processing, with a per-currency price record.  `providerName` is kept as
an optional field because at runtime freshly imported offerings still
carry it (`extractProviderInformation` deletes it later). -/
structure ProcessedModelProviderInformation where
  providerId : String
  providerName : Option String
  contextLength : Option Int
  inputLimit : Option Int
  outputLimit : Option Int
  price : List (String × PriceInformation)
  deriving DecidableEq, Repr

/-- `ProcessedModelInformation`: a catalog entry.  `description` is the
locale → text record; the optional `deprecated` flag is modelled as a
`Bool` with absence conflated with `false`. -/
structure ProcessedModelInformation where
  id : String
  aliases : List String
  name : String
  description : Option (List (String × String))
  input : List String
  output : List String
  reasoning : Option Bool
  toolCalling : Option Bool
  openWeights : Option Bool
  knowledge : Option String
  parameters : List String
  defaultParameters : List (String × String)
  contextLength : Option Int
  inputLimit : Option Int
  outputLimit : Option Int
  providers : List ProcessedModelProviderInformation
  freeProviders : List ModelInformationOfProvider
  deprecated : Bool
  lastImportedAt : Option String
  deriving DecidableEq, Repr

/-- `ProviderInformation`: one entry of the provider directory. -/
structure ProviderInformation where
  id : String
  name : String
  deriving DecidableEq, Repr

/-- `OutputStructure`: the persisted catalog plus the provider
directory. -/
structure OutputStructure where
  models : List ProcessedModelInformation
  providers : List ProviderInformation
  deriving DecidableEq, Repr

/-- `HashFileStructure`: the persisted id → content-hash map; the hash
value is the canonicalized source record (see the header). -/
def HashFileStructure : Type :=
  List (String × ModelInformation)

/-! ## `processor` (processor.ts:20-133) -/

/-- Association-list lookup by string key (`hashes[id]`). -/
def lookupEntry {α : Type} : List (String × α) → String → Option α
  | [], _ => none
  | e :: rest, k => if e.fst == k then some e.snd else lookupEntry rest k

/-- Association-list update: replace the first entry with the key, else
append (`hashes[id] = h`). -/
def setEntry {α : Type} : List (String × α) → String → α → List (String × α)
  | [], k, v => [(k, v)]
  | e :: rest, k, v => if e.fst == k then (k, v) :: rest else e :: setEntry rest k v

/-- `list.find(m => m.id === id)` on catalog entries. -/
def lookupProc : List ProcessedModelInformation → String → Option ProcessedModelInformation
  | [], _ => none
  | r :: rest, i => if r.id == i then some r else lookupProc rest i

/-- Insert a string into an ascending sorted list (canonicalization of the
alias list in `calculateModelHash`, `[...aliases].sort()`). -/
def insertStrAsc (x : String) : List String → List String
  | [] => [x]
  | y :: ys => if strLe y x then y :: insertStrAsc x ys else x :: y :: ys

/-- `[...aliases].sort()`. -/
def sortStrAsc : List String → List String
  | [] => []
  | x :: xs => insertStrAsc x (sortStrAsc xs)

/-- Insert an offering into a list sorted ascending by `providerId`. -/
def insertProvAsc (x : ModelInformationOfProvider) :
    List ModelInformationOfProvider → List ModelInformationOfProvider
  | [] => [x]
  | y :: ys => if strLe y.providerId x.providerId then y :: insertProvAsc x ys else x :: y :: ys

/-- `[...providers].sort((a, b) => a.providerId.localeCompare(b.providerId))`. -/
def sortProvAsc : List ModelInformationOfProvider → List ModelInformationOfProvider
  | [] => []
  | x :: xs => insertProvAsc x (sortProvAsc xs)

/-- `calculateModelHash` (processor.ts:125-133): the content hash of a
source model, over a copy with the aliases sorted and the providers sorted
by `providerId`.  `freeProviders` is NOT sorted and no other field is
touched.  The sha256 of the JSON serialization is modelled by the
canonicalized record itself (see the header). -/
def calculateModelHash (model : ModelInformation) : ModelInformation :=
  { model with aliases := sortStrAsc model.aliases
               providers := sortProvAsc model.providers }

/-- `ProcessingStep` (steps/types.ts): (sourceModel, existingModel?,
newModel) → newModel. -/
def PerModelStep : Type :=
  ModelInformation → Option ProcessedModelInformation → ProcessedModelInformation →
    ProcessedModelInformation

/-- `ProcessingNoChangeStep` (steps/types.ts): (sourceModel,
existingModel) → existingModel. -/
def NoChangeStep : Type :=
  ModelInformation → ProcessedModelInformation → ProcessedModelInformation

/-- `BatchProcessingStep` (steps/types.ts): the full list in, the full
list out. -/
def BatchStep : Type :=
  List ProcessedModelInformation → List ProcessedModelInformation

/-- `ProcessingOutputStructureStep` (steps/types.ts). -/
def OutputStructureStep : Type :=
  OutputStructure → OutputStructure

/-- The `steps` argument of the processor, as wired in `run.ts`. -/
structure StepConfig where
  newAndChanged : List PerModelStep
  noChange : List NoChangeStep
  batch : List BatchStep
  outputStructure : List OutputStructureStep

/-- One entry of the processor's invocation log: which configured step ran
on which model (per-model steps) or on which list of model ids (batch
steps). -/
inductive StepEvent where
  | newChangedStep (i : Nat) (modelId : String)
  | noChangeStep (i : Nat) (modelId : String)
  | batchStep (i : Nat) (modelIds : List String)
  deriving DecidableEq, Repr

/-- The initial work-in-progress record (processor.ts:59-64):
`{...sourceModel, description: undefined, lastImportedAt: now,
providers: []}`. -/
def initialProcessed (now : Option String) (src : ModelInformation) :
    ProcessedModelInformation :=
  { id := src.id, aliases := src.aliases, name := src.name, description := none,
    input := src.input, output := src.output, reasoning := src.reasoning,
    toolCalling := src.toolCalling, openWeights := src.openWeights,
    knowledge := src.knowledge, parameters := src.parameters,
    defaultParameters := src.defaultParameters, contextLength := none,
    inputLimit := none, outputLimit := none, providers := [],
    freeProviders := src.freeProviders, deprecated := false, lastImportedAt := now }

/-- The per-model `newAndChanged` chain (processor.ts:85-87). -/
def runNewSteps (steps : List PerModelStep) (src : ModelInformation)
    (ex : Option ProcessedModelInformation) (w0 : ProcessedModelInformation) :
    ProcessedModelInformation :=
  steps.foldl (fun w s => s src ex w) w0

/-- The per-model `noChange` chain (processor.ts:72-74). -/
def runNoChangeSteps (steps : List NoChangeStep) (src : ModelInformation)
    (e0 : ProcessedModelInformation) : ProcessedModelInformation :=
  steps.foldl (fun e s => s src e) e0

/-- Mark the FIRST catalog entry with the given id as deprecated
(`existingModels.find(m => m.id === id)!.deprecated = true`,
processor.ts:45-49). -/
def setFirstDeprecated : List ProcessedModelInformation → String →
    List ProcessedModelInformation
  | [], _ => []
  | e :: rest, i =>
      if e.id == i then { e with deprecated := true } :: rest
      else e :: setFirstDeprecated rest i

/-- The deprecation pass over the missing ids (processor.ts:45-49). -/
def markDeprecated (existing : List ProcessedModelInformation)
    (missing : List String) : List ProcessedModelInformation :=
  missing.foldl setFirstDeprecated existing

/-- The mutable state of the main per-model loop: `newModelsList`, the
hash map, and the invocation log. -/
structure ProcState where
  list : List ProcessedModelInformation
  hashes : HashFileStructure
  events : List StepEvent

/-- One iteration of the main per-model loop (processor.ts:53-90).  A
model whose id is previously known and whose hash equals the stored hash
is UNCHANGED: with no `noChange` steps nothing happens (`continue`);
otherwise the `noChange` chain refreshes the existing record and its
result is pushed onto `newModelsList`.  Every other model is NEW_OR_CHANGED:
the stored hash is updated and the `newAndChanged` chain output is
pushed. -/
def procStep (cfg : StepConfig) (now : Option String)
    (existingMarked : List ProcessedModelInformation) (existingIds : List String)
    (st : ProcState) (src : ModelInformation) : ProcState :=
  if src.id ∈ existingIds ∧ lookupEntry st.hashes src.id = some (calculateModelHash src) then
    match lookupProc existingMarked src.id with
    | some e =>
        if cfg.noChange.isEmpty then st
        else
          { list := st.list ++ [runNoChangeSteps cfg.noChange src e]
            hashes := st.hashes
            events := st.events
              ++ (List.range cfg.noChange.length).map (fun i => StepEvent.noChangeStep i src.id) }
    | none => st
  else
    { list := st.list
        ++ [runNewSteps cfg.newAndChanged src
              (if src.id ∈ existingIds then lookupProc existingMarked src.id else none)
              (initialProcessed now src)]
      hashes := setEntry st.hashes src.id (calculateModelHash src)
      events := st.events
        ++ (List.range cfg.newAndChanged.length).map (fun i => StepEvent.newChangedStep i src.id) }

/-- The batch pass (processor.ts:93-95): each batch step receives the
current `newModelsList` and replaces it; one log entry per step carries
the ids of the list that step received. -/
def runBatchAux : Nat → List BatchStep → List ProcessedModelInformation →
    List ProcessedModelInformation × List StepEvent
  | _, [], ms => (ms, [])
  | i, s :: rest, ms =>
      let r := runBatchAux (i + 1) rest (s ms)
      (r.1, StepEvent.batchStep i (ms.map (fun m => m.id)) :: r.2)

/-- The add-back loop (processor.ts:97-102): every existing catalog entry
whose id is not yet present in the (growing) `newModelsList` is pushed. -/
def addBack (nl existing : List ProcessedModelInformation) :
    List ProcessedModelInformation :=
  existing.foldl (fun acc e => if (lookupProc acc e.id).isSome then acc else acc ++ [e]) nl

/-- Insert a catalog entry into a list sorted ascending by id
(`newModelsList.sort((a, b) => a.id.localeCompare(b.id))`,
processor.ts:105). -/
def insertById (x : ProcessedModelInformation) :
    List ProcessedModelInformation → List ProcessedModelInformation
  | [] => [x]
  | y :: ys => if strLe y.id x.id then y :: insertById x ys else x :: y :: ys

/-- The final sort by model id. -/
def sortById : List ProcessedModelInformation → List ProcessedModelInformation
  | [] => []
  | x :: xs => insertById x (sortById xs)

/-- The missing ids (processor.ts:36): previously known ids absent from
the source list. -/
def missingIds (existingIds sourceIds : List String) : List String :=
  existingIds.filter (fun i => !(decide (i ∈ sourceIds)))

/-- The deprecation-marked catalog the loop works against
(processor.ts:45-49 mutate the records of `structure.models` in place). -/
def markedModels (sourceModels : List ModelInformation)
    (struct : OutputStructure) : List ProcessedModelInformation :=
  markDeprecated struct.models
    (missingIds (struct.models.map (fun m => m.id)) (sourceModels.map (fun m => m.id)))

/-- The state after the main per-model loop. -/
def procState (sourceModels : List ModelInformation) (struct : OutputStructure)
    (hashes : HashFileStructure) (cfg : StepConfig) (now : Option String) : ProcState :=
  sourceModels.foldl
    (procStep cfg now (markedModels sourceModels struct)
      (struct.models.map (fun m => m.id)))
    ⟨[], hashes, []⟩

/-- The result of the processor: the returned structure, the mutated hash
map, and the invocation log. -/
structure ProcessorResult where
  output : OutputStructure
  hashes : HashFileStructure
  events : List StepEvent

/-- `processor` (processor.ts:20-118): mark the missing models deprecated;
classify and process each source model; run the batch steps over
`newModelsList`; add back the remaining existing models; sort by id; and
run the configured output-structure steps over the assembled structure. -/
def processor (sourceModels : List ModelInformation) (struct : OutputStructure)
    (hashes : HashFileStructure) (cfg : StepConfig) (now : Option String) :
    ProcessorResult :=
  let st := procState sourceModels struct hashes cfg now
  let br := runBatchAux 0 cfg.batch st.list
  let final := sortById (addBack br.1 (markedModels sourceModels struct))
  { output := cfg.outputStructure.foldl (fun s f => f s)
      { struct with models := final }
    hashes := st.hashes
    events := st.events ++ br.2 }

/-! ## Lemmas on `deduplicateProviders` (claims C3, C9) -/

theorem mergeMinInt_some_some (x y : Int) :
    mergeMinInt (some x) (some y) = some (min x y) := by
  simp only [mergeMinInt]
  split <;> (congr 1; omega)

theorem mergeMinInt_none_right (a : Option Int) : mergeMinInt a none = a := by
  cases a <;> rfl

theorem mergeMinInt_comm (a b : Option Int) : mergeMinInt a b = mergeMinInt b a := by
  cases a with
  | none => cases b <;> rfl
  | some x =>
    cases b with
    | none => rfl
    | some y => rw [mergeMinInt_some_some, mergeMinInt_some_some, min_comm]

theorem sameCurrency_symm {a b : Option PriceInformation}
    (h : sameCurrency a b = true) : sameCurrency b a = true := by
  cases a with
  | none =>
    cases b with
    | none => simp [sameCurrency]
    | some q => simp [sameCurrency] at h
  | some p =>
    cases b with
    | none => simp [sameCurrency] at h
    | some q =>
      simp only [sameCurrency, beq_iff_eq] at h ⊢
      exact h.symm

theorem namesOverlap_symm {a b : Option String}
    (h : namesOverlap a b = true) : namesOverlap b a = true := by
  cases a with
  | none => cases b <;> simp [namesOverlap] at h
  | some x =>
    cases b with
    | none => simp [namesOverlap] at h
    | some y =>
      simp only [namesOverlap, Bool.or_eq_true] at h ⊢
      tauto

theorem sameProviderOffering_symm {a b : ModelInformationOfProvider}
    (h : sameProviderOffering a b = true) : sameProviderOffering b a = true := by
  simp only [sameProviderOffering, Bool.and_eq_true, Bool.or_eq_true] at h ⊢
  obtain ⟨hc, hio⟩ := h
  refine ⟨sameCurrency_symm hc, ?_⟩
  rcases hio with hid | hn
  · rw [beq_iff_eq] at hid
    exact Or.inl (by rw [beq_iff_eq]; exact hid.symm)
  · exact Or.inr (namesOverlap_symm hn)

/-- The value-level behaviour of one price field's merge when both sides
parse: the string whose value is the maximum survives (existing kept on
ties). -/
theorem mergePriceVal_both {a b : String} {x y : ℚ}
    (ha : parseDec a = some x) (hb : parseDec b = some y) :
    mergePriceVal (some a) (some b) = some (if x < y then b else a)
    ∧ (mergePriceVal (some a) (some b)).bind parseDec = some (max x y) := by
  have hg : parseGt b a = decide (x < y) := by
    simp [parseGt, ha, hb]
  constructor
  · simp only [mergePriceVal, hg]
    by_cases hxy : x < y
    · simp [hxy]
    · simp [hxy]
  · simp only [mergePriceVal, hg]
    by_cases hxy : x < y
    · simp [hxy, hb, max_eq_right (le_of_lt hxy)]
    · simp [hxy, ha, max_eq_left (le_of_not_lt hxy)]

/-- Claim C3: whenever `deduplicateProviders` merges an incoming offering
into an existing one, the resulting `contextLength`, `inputLimit` and
`outputLimit` each equal the minimum of the values known on the two
offerings and, for price strings with a numeric value, the resulting
`price.input` and `price.output` each carry the maximum of the known
values; an unknown (absent) value never overwrites a known one. -/
theorem insertOffering_min_max (e o : ModelInformationOfProvider)
    (rest : List ModelInformationOfProvider)
    (hm : sameProviderOffering e o = true) :
    insertOffering (e :: rest) o = mergeOffering e o :: rest
    ∧ (∀ x y : Int, e.contextLength = some x → o.contextLength = some y →
        (mergeOffering e o).contextLength = some (min x y))
    ∧ (e.contextLength = none → (mergeOffering e o).contextLength = o.contextLength)
    ∧ (o.contextLength = none → (mergeOffering e o).contextLength = e.contextLength)
    ∧ (∀ x y : Int, e.inputLimit = some x → o.inputLimit = some y →
        (mergeOffering e o).inputLimit = some (min x y))
    ∧ (e.inputLimit = none → (mergeOffering e o).inputLimit = o.inputLimit)
    ∧ (o.inputLimit = none → (mergeOffering e o).inputLimit = e.inputLimit)
    ∧ (∀ x y : Int, e.outputLimit = some x → o.outputLimit = some y →
        (mergeOffering e o).outputLimit = some (min x y))
    ∧ (e.outputLimit = none → (mergeOffering e o).outputLimit = o.outputLimit)
    ∧ (o.outputLimit = none → (mergeOffering e o).outputLimit = e.outputLimit)
    ∧ (∀ p q, e.price = some p → o.price = some q →
        ∃ r, (mergeOffering e o).price = some r
          ∧ (∀ a b x y, p.input = some a → q.input = some b →
              parseDec a = some x → parseDec b = some y →
              r.input = some (if x < y then b else a)
              ∧ r.input.bind parseDec = some (max x y))
          ∧ (p.input = none → r.input = q.input)
          ∧ (q.input = none → r.input = p.input)
          ∧ (∀ a b x y, p.output = some a → q.output = some b →
              parseDec a = some x → parseDec b = some y →
              r.output = some (if x < y then b else a)
              ∧ r.output.bind parseDec = some (max x y))
          ∧ (p.output = none → r.output = q.output)
          ∧ (q.output = none → r.output = p.output)) := by
  refine ⟨by simp [insertOffering, hm], ?_, ?_, ?_, ?_, ?_, ?_, ?_, ?_, ?_, ?_⟩
  · intro x y hx hy; simp [mergeOffering, hx, hy, mergeMinInt_some_some]
  · intro hx; simp [mergeOffering, hx, mergeMinInt]
  · intro hy; simp [mergeOffering, hy, mergeMinInt_none_right]
  · intro x y hx hy; simp [mergeOffering, hx, hy, mergeMinInt_some_some]
  · intro hx; simp [mergeOffering, hx, mergeMinInt]
  · intro hy; simp [mergeOffering, hy, mergeMinInt_none_right]
  · intro x y hx hy; simp [mergeOffering, hx, hy, mergeMinInt_some_some]
  · intro hx; simp [mergeOffering, hx, mergeMinInt]
  · intro hy; simp [mergeOffering, hy, mergeMinInt_none_right]
  · intro p q hp hq
    refine ⟨{ currency := p.currency, input := mergePriceVal p.input q.input,
              output := mergePriceVal p.output q.output }, ?_, ?_, ?_, ?_, ?_, ?_, ?_⟩
    · simp [mergeOffering, hp, hq, mergePrice]
    · intro a b x y ha hb hpa hpb
      rw [ha, hb]
      exact mergePriceVal_both hpa hpb
    · intro hx; simp [hx, mergePriceVal]
      cases q.input <;> simp [mergePriceVal]
    · intro hy; simp [hy, mergePriceVal]
    · intro a b x y ha hb hpa hpb
      rw [ha, hb]
      exact mergePriceVal_both hpa hpb
    · intro hx; simp [hx, mergePriceVal]
      cases q.output <;> simp [mergePriceVal]
    · intro hy; simp [hy, mergePriceVal]

/-- An offering whose present price strings all have a numeric value
(no `NaN` under `parseFloat`). -/
def priceParses (o : ModelInformationOfProvider) : Prop :=
  ∀ p, o.price = some p →
    (∀ s, p.input = some s → (parseDec s).isSome = true)
    ∧ (∀ s, p.output = some s → (parseDec s).isSome = true)

theorem mergePriceVal_bind_comm {u v : Option String}
    (hu : ∀ s, u = some s → (parseDec s).isSome = true)
    (hv : ∀ s, v = some s → (parseDec s).isSome = true) :
    (mergePriceVal u v).bind parseDec = (mergePriceVal v u).bind parseDec := by
  cases u with
  | none =>
    cases v with
    | none => rfl
    | some b => simp [mergePriceVal]
  | some a =>
    cases v with
    | none => simp [mergePriceVal]
    | some b =>
      obtain ⟨x, hx⟩ := Option.isSome_iff_exists.mp (hu a rfl)
      obtain ⟨y, hy⟩ := Option.isSome_iff_exists.mp (hv b rfl)
      rw [(mergePriceVal_both hx hy).2, (mergePriceVal_both hy hx).2, max_comm]

/-- Claim C9: for mergeable offerings `A` and `B` whose price strings
parse, merging `[A, B]` and merging `[B, A]` yield the same numeric bounds
in the resulting single offering — the minimum of the known limits and the
maximum of the known price values — though the surviving `providerId` and
`providerName` may differ between the two orders. -/
theorem deduplicateProviders_pair_comm (a b : ModelInformationOfProvider)
    (hm : sameProviderOffering a b = true)
    (hwa : priceParses a) (hwb : priceParses b) :
    deduplicateProviders [a, b] = [mergeOffering a b]
    ∧ deduplicateProviders [b, a] = [mergeOffering b a]
    ∧ (mergeOffering a b).contextLength = (mergeOffering b a).contextLength
    ∧ (mergeOffering a b).inputLimit = (mergeOffering b a).inputLimit
    ∧ (mergeOffering a b).outputLimit = (mergeOffering b a).outputLimit
    ∧ (mergeOffering a b).price.map (fun p => p.input.bind parseDec)
        = (mergeOffering b a).price.map (fun p => p.input.bind parseDec)
    ∧ (mergeOffering a b).price.map (fun p => p.output.bind parseDec)
        = (mergeOffering b a).price.map (fun p => p.output.bind parseDec) := by
  have hm' : sameProviderOffering b a = true := sameProviderOffering_symm hm
  have hc : sameCurrency a.price b.price = true := by
    have := (Bool.and_eq_true _ _).mp hm
    exact this.1
  refine ⟨by simp [deduplicateProviders, insertOffering, hm],
          by simp [deduplicateProviders, insertOffering, hm'],
          by simp [mergeOffering, mergeMinInt_comm],
          by simp [mergeOffering, mergeMinInt_comm],
          by simp [mergeOffering, mergeMinInt_comm], ?_, ?_⟩
  · rcases hp : a.price with _ | p <;> rcases hq : b.price with _ | q
    · simp [mergeOffering, mergePrice, hp, hq]
    · rw [hp, hq] at hc; simp [sameCurrency] at hc
    · rw [hp, hq] at hc; simp [sameCurrency] at hc
    · simp only [mergeOffering, mergePrice, hp, hq, Option.map_some']
      congr 1
      exact mergePriceVal_bind_comm ((hwa p hp).1) ((hwb q hq).1)
  · rcases hp : a.price with _ | p <;> rcases hq : b.price with _ | q
    · simp [mergeOffering, mergePrice, hp, hq]
    · rw [hp, hq] at hc; simp [sameCurrency] at hc
    · rw [hp, hq] at hc; simp [sameCurrency] at hc
    · simp only [mergeOffering, mergePrice, hp, hq, Option.map_some']
      congr 1
      exact mergePriceVal_bind_comm ((hwa p hp).2) ((hwb q hq).2)

/-! ## Concrete records used by witnesses and counterexamples -/

/-- An offering with all fields empty/unknown. -/
def emptyOffering : ModelInformationOfProvider :=
  { providerId := "", providerName := none, contextLength := none,
    inputLimit := none, outputLimit := none, price := none }

/-- A source model record with all fields empty/unknown. -/
def emptyModel : ModelInformation :=
  { id := "", aliases := [], name := "", description := "", input := [],
    output := [], reasoning := none, toolCalling := none, openWeights := none,
    knowledge := none, parameters := [], defaultParameters := [],
    providers := [], freeProviders := [] }

/-- The offering of the merge scenario with `providerId := "a"`,
`price.input := "1.00"` usd. -/
def offA : ModelInformationOfProvider :=
  { emptyOffering with
      providerId := "a"
      providerName := some "alphamodel"
      price := some { currency := "usd", input := some "1.00", output := none } }

/-- The offering of the merge scenario with `providerId := "ab"`,
`price.input := "2.00"` usd, whose name extends `offA`'s name. -/
def offB : ModelInformationOfProvider :=
  { emptyOffering with
      providerId := "ab"
      providerName := some "alphamodelx"
      price := some { currency := "usd", input := some "2.00", output := none } }

theorem insertOffering_min_max_witness :
    sameProviderOffering offA offB = true
    ∧ insertOffering (offA :: []) offB = mergeOffering offA offB :: [] :=
  ⟨by decide, (insertOffering_min_max offA offB [] (by decide)).1⟩

theorem offA_priceParses : priceParses offA := by
  intro p hp
  obtain rfl : ({ currency := "usd", input := some "1.00", output := none }
      : PriceInformation) = p := Option.some.inj hp
  refine ⟨fun s hs => ?_, fun s hs => ?_⟩
  · obtain rfl : "1.00" = s := Option.some.inj hs
    decide
  · cases hs

theorem offB_priceParses : priceParses offB := by
  intro p hp
  obtain rfl : ({ currency := "usd", input := some "2.00", output := none }
      : PriceInformation) = p := Option.some.inj hp
  refine ⟨fun s hs => ?_, fun s hs => ?_⟩
  · obtain rfl : "2.00" = s := Option.some.inj hs
    decide
  · cases hs

theorem deduplicateProviders_pair_comm_witness :
    sameProviderOffering offA offB = true
    ∧ (mergeOffering offA offB).price.map (fun p => p.input.bind parseDec)
        = (mergeOffering offB offA).price.map (fun p => p.input.bind parseDec) :=
  ⟨by decide,
    (deduplicateProviders_pair_comm offA offB (by decide)
      offA_priceParses offB_priceParses).2.2.2.2.2.1⟩

/-! ## Sticky-false tri-state flags (claim C4) -/

theorem mergeFlag_false_left (b : Option Bool) : mergeFlag (some false) b = some false := by
  rcases b with _ | _ | _ <;> rfl

theorem mergeFlag_false_right (a : Option Bool) : mergeFlag a (some false) = some false := by
  rcases a with _ | _ | _ <;> rfl

theorem mergeModel_id (t m : ModelInformation) (f : Bool) : (mergeModel t m f).id = t.id := rfl

/-- Folding further same-key models into a lone stored representative
keeps the output a singleton with the same id, and any tri-state flag that
is `some false` on the representative or on any folded model is
`some false` on the result.  `g` is the flag projection, constrained to
commute with the merge operations. -/
theorem dedup_single_sticky_aux (g : ModelInformation → Option Bool)
    (hmerge : ∀ t m f, g (mergeModel t m f) = mergeFlag (g t) (g m))
    (hpre : ∀ m, g (preprocessModel m).1 = g m) :
    ∀ (xs : List ModelInformation) (t : ModelInformation),
      (∀ m ∈ xs, comparableKey (preprocessModel m).1.id = comparableKey t.id) →
      ∃ t', xs.foldl dedupStep [t] = [t']
        ∧ t'.id = t.id
        ∧ (g t = some false → g t' = some false)
        ∧ (∀ m ∈ xs, g m = some false → g t' = some false) := by
  intro xs
  induction xs with
  | nil =>
    intro t _
    exact ⟨t, rfl, rfl, fun h => h, by simp⟩
  | cons m rest ih =>
    intro t hk
    have hkm : comparableKey (preprocessModel m).1.id = comparableKey t.id :=
      hk m (List.mem_cons_self _ _)
    have hstep : dedupStep [t] m
        = [mergeModel t (preprocessModel m).1 (preprocessModel m).2] := by
      simp [dedupStep, insertModel, beq_iff_eq, hkm]
    have hk' : ∀ m' ∈ rest,
        comparableKey (preprocessModel m').1.id
          = comparableKey (mergeModel t (preprocessModel m).1 (preprocessModel m).2).id := by
      intro m' hm'
      rw [mergeModel_id]
      exact hk m' (List.mem_cons_of_mem _ hm')
    obtain ⟨t', hfold, hid, hfalse, hall⟩ :=
      ih (mergeModel t (preprocessModel m).1 (preprocessModel m).2) hk'
    refine ⟨t', ?_, by rw [hid, mergeModel_id], ?_, ?_⟩
    · rw [List.foldl_cons, hstep]; exact hfold
    · intro hft
      exact hfalse (by rw [hmerge, hft, mergeFlag_false_left])
    · intro m'' hm'' hgm
      rcases List.mem_cons.mp hm'' with rfl | hmem
      · exact hfalse (by rw [hmerge, hpre, hgm, mergeFlag_false_right])
      · exact hall m'' hmem hgm

/-- Sticky-false for one flag projection, at the `deduplicateModels`
level, for a class of models sharing one comparison key. -/
theorem dedup_single_sticky (g : ModelInformation → Option Bool)
    (hmerge : ∀ t m f, g (mergeModel t m f) = mergeFlag (g t) (g m))
    (hpre : ∀ m, g (preprocessModel m).1 = g m)
    (xs : List ModelInformation) (k : String)
    (hk : ∀ m ∈ xs, comparableKey (preprocessModel m).1.id = k)
    (c : ModelInformation) (hc : c ∈ deduplicateModels xs)
    (hex : ∃ m ∈ xs, g m = some false) : g c = some false := by
  cases xs with
  | nil => simp [deduplicateModels] at hc
  | cons m rest =>
    unfold deduplicateModels at hc
    rw [List.foldl_cons] at hc
    have h0 : dedupStep [] m = [(preprocessModel m).1] := rfl
    rw [h0] at hc
    have hk' : ∀ m' ∈ rest,
        comparableKey (preprocessModel m').1.id
          = comparableKey (preprocessModel m).1.id := by
      intro m' hm'
      rw [hk m' (List.mem_cons_of_mem _ hm'), hk m (List.mem_cons_self _ _)]
    obtain ⟨t', hfold, hid, hfalse, hall⟩ :=
      dedup_single_sticky_aux g hmerge hpre rest (preprocessModel m).1 hk'
    rw [hfold] at hc
    have hct : c = t' := by simpa using hc
    subst hct
    rcases hex with ⟨m'', hm'', hgm⟩
    rcases List.mem_cons.mp hm'' with rfl | hmem
    · exact hfalse (by rw [hpre, hgm])
    · exact hall m'' hmem hgm

/-- Claim C4: for each tri-state flag (`openWeights`, `reasoning`,
`toolCalling`) and every ordered list of models that `deduplicateModels`
merges into one canonical model (a list sharing one comparison key): if
any merged input has the flag `false`, the resulting canonical model has
the flag `false`, regardless of how many `true` or unknown values appear
before or after it in the merge order. -/
theorem deduplicateModels_sticky_false (xs : List ModelInformation) (k : String)
    (hk : ∀ m ∈ xs, comparableKey (preprocessModel m).1.id = k)
    (c : ModelInformation) (hc : c ∈ deduplicateModels xs) :
    ((∃ m ∈ xs, m.openWeights = some false) → c.openWeights = some false)
    ∧ ((∃ m ∈ xs, m.reasoning = some false) → c.reasoning = some false)
    ∧ ((∃ m ∈ xs, m.toolCalling = some false) → c.toolCalling = some false) := by
  refine ⟨?_, ?_, ?_⟩
  · exact dedup_single_sticky (fun m => m.openWeights)
      (fun t m f => rfl)
      (fun m => by unfold preprocessModel; split <;> rfl) xs k hk c hc
  · exact dedup_single_sticky (fun m => m.reasoning)
      (fun t m f => rfl)
      (fun m => by unfold preprocessModel; split <;> rfl) xs k hk c hc
  · exact dedup_single_sticky (fun m => m.toolCalling)
      (fun t m f => rfl)
      (fun m => by unfold preprocessModel; split <;> rfl) xs k hk c hc

/-- A concrete model whose three tri-state flags are all `false`. -/
def flagFalseModel : ModelInformation :=
  { emptyModel with
      id := "mw"
      aliases := ["mw"]
      openWeights := some false
      reasoning := some false
      toolCalling := some false }

theorem deduplicateModels_sticky_false_witness :
    (∀ m ∈ [flagFalseModel], comparableKey (preprocessModel m).1.id = "mw")
    ∧ flagFalseModel ∈ deduplicateModels [flagFalseModel]
    ∧ flagFalseModel.openWeights = some false :=
  ⟨by decide, by decide,
    (deduplicateModels_sticky_false [flagFalseModel] "mw" (by decide)
      flagFalseModel (by decide)).1 ⟨flagFalseModel, by decide, by decide⟩⟩

/-! ## Membership invariants of the deduplicator (claims C6, C7) -/

theorem mem_insertModel {c : ModelInformation} :
    ∀ (acc : List ModelInformation) (m : ModelInformation) (f : Bool),
      c ∈ insertModel acc m f →
      c ∈ acc ∨ (∃ t ∈ acc, c = mergeModel t m f) ∨ c = m := by
  intro acc
  induction acc with
  | nil =>
    intro m f hc
    simp [insertModel] at hc
    exact Or.inr (Or.inr hc)
  | cons t rest ih =>
    intro m f hc
    by_cases hkey : (comparableKey t.id == comparableKey m.id) = true
    · simp [insertModel, hkey] at hc
      rcases hc with rfl | hc
      · exact Or.inr (Or.inl ⟨t, List.mem_cons_self _ _, rfl⟩)
      · exact Or.inl (List.mem_cons_of_mem _ hc)
    · simp only [insertModel, hkey] at hc
      rw [if_neg (by simp [hkey])] at hc
      rcases List.mem_cons.mp hc with rfl | hc
      · exact Or.inl (List.mem_cons_self _ _)
      · rcases ih m f hc with h | ⟨t', ht', rfl⟩ | h
        · exact Or.inl (List.mem_cons_of_mem _ h)
        · exact Or.inr (Or.inl ⟨t', List.mem_cons_of_mem _ ht', rfl⟩)
        · exact Or.inr (Or.inr h)

/-- Any property `P` that holds for every preprocessed input and is
preserved by class merges holds for every member of the deduplicator's
output. -/
theorem dedup_member_invariant (P : ModelInformation → Prop) :
    ∀ (ys acc : List ModelInformation),
      (∀ m ∈ ys, P (preprocessModel m).1) →
      (∀ t, ∀ m ∈ ys, P t → P (mergeModel t (preprocessModel m).1 (preprocessModel m).2)) →
      (∀ t ∈ acc, P t) →
      ∀ c ∈ ys.foldl dedupStep acc, P c := by
  intro ys
  induction ys with
  | nil =>
    intro acc _ _ hacc c hc
    exact hacc c hc
  | cons m rest ih =>
    intro acc hstore hmerge hacc c hc
    rw [List.foldl_cons] at hc
    refine ih (dedupStep acc m)
      (fun m' hm' => hstore m' (List.mem_cons_of_mem _ hm'))
      (fun t m' hm' ht => hmerge t m' (List.mem_cons_of_mem _ hm') ht) ?_ c hc
    intro t ht
    rcases mem_insertModel acc (preprocessModel m).1 (preprocessModel m).2 ht with
      h | ⟨t', ht', rfl⟩ | rfl
    · exact hacc t h
    · exact hmerge t' m (List.mem_cons_self _ _) (hacc t' ht')
    · exact hstore m (List.mem_cons_self _ _)

theorem preprocess_free {m : ModelInformation} (h : hasFreeSuffix m.id = true) :
    (preprocessModel m).2 = true := by
  unfold preprocessModel
  rw [if_pos h]

theorem preprocess_not_free {m : ModelInformation} (h : hasFreeSuffix m.id = false) :
    preprocessModel m = (m, false) := by
  unfold preprocessModel
  rw [if_neg (by simp [h])]

/-- A concrete offering of provider `p`. -/
def offeringP : ModelInformationOfProvider :=
  { emptyOffering with providerId := "p" }

/-- A non-free record of the logical model `m` carrying `offeringP`. -/
def paidRecordM : ModelInformation :=
  { emptyModel with id := "m", aliases := ["m"], providers := [offeringP] }

/-- A free-tier record of the same logical model carrying `offeringP`. -/
def freeRecordM : ModelInformation :=
  { emptyModel with id := "m:FREE", providers := [offeringP] }

/-- Claim C6, counterexample.  First conjunct: when the same offering
arrives on a non-free record and then on a free-tier record of the same
logical model, the merged canonical model carries the identical offering
value in `providers` AND in `freeProviders` — the two lists are not
disjoint.  Second conjunct: a free-tier record that is the first of its
class is stored as-is, so its offering stays in `providers` and
`freeProviders` stays empty — free-tier offerings do not always end up in
`freeProviders`. -/
theorem deduplicateModels_free_overlap_counterexample :
    (∃ c ∈ deduplicateModels [paidRecordM, freeRecordM],
      ∃ x ∈ c.providers, x ∈ c.freeProviders)
    ∧ (∃ c ∈ deduplicateModels [freeRecordM],
      offeringP ∈ c.providers ∧ c.freeProviders = []) := by decide

/-- Claim C6 (amended): a non-free record's offerings never reach
`freeProviders` (runs with no free-tier records and no incoming
`freeProviders` leave every output's `freeProviders` empty), and the class
merge routes a free-tier member's offerings into `freeProviders` (leaving
`providers` untouched) and a non-free member's offerings into `providers`
(leaving `freeProviders` untouched).  However a free-tier record that
establishes its class keeps its offerings in `providers`, and the two
lists may share identical offering values. -/
theorem deduplicateModels_free_routing (xs : List ModelInformation) :
    ((∀ m ∈ xs, hasFreeSuffix m.id = false ∧ m.freeProviders = []) →
      ∀ c ∈ deduplicateModels xs, c.freeProviders = [])
    ∧ (∀ t m : ModelInformation,
        (mergeModel t m true).providers = t.providers
        ∧ (mergeModel t m true).freeProviders
            = deduplicateProviders (t.freeProviders ++ m.providers)
        ∧ (mergeModel t m false).freeProviders = t.freeProviders
        ∧ (mergeModel t m false).providers
            = deduplicateProviders (t.providers ++ m.providers)) := by
  constructor
  · intro hall
    refine dedup_member_invariant (fun c => c.freeProviders = []) xs [] ?_ ?_ (by simp)
    · intro m hm
      rw [preprocess_not_free (hall m hm).1]
      exact (hall m hm).2
    · intro t m hm ht
      have hp : preprocessModel m = (m, false) := preprocess_not_free (hall m hm).1
      rw [hp]
      show (mergeModel t m false).freeProviders = []
      rw [mergeModel]
      simpa using ht
  · intro t m
    refine ⟨?_, ?_, ?_, ?_⟩ <;> simp [mergeModel]

theorem deduplicateModels_free_routing_witness :
    (∀ m ∈ [paidRecordM], hasFreeSuffix m.id = false ∧ m.freeProviders = [])
    ∧ paidRecordM ∈ deduplicateModels [paidRecordM]
    ∧ paidRecordM.freeProviders = [] :=
  ⟨by decide, by decide,
    (deduplicateModels_free_routing [paidRecordM]).1 (by decide)
      paidRecordM (by decide)⟩

/-! ## Alias-merge lemmas (claim C7) -/

theorem perm_insertByLen (x : String) (l : List String) :
    (insertByLen x l).Perm (x :: l) := by
  induction l with
  | nil => rfl
  | cons y ys ih =>
    by_cases h : strLen y ≤ strLen x
    · rw [insertByLen, if_pos h]
    · rw [insertByLen, if_neg h]
      exact (ih.cons y).trans (List.Perm.swap x y ys)

theorem perm_sortByLen (l : List String) : (sortByLen l).Perm l := by
  induction l with
  | nil => rfl
  | cons x xs ih =>
    exact (perm_insertByLen x (sortByLen xs)).trans (ih.cons x)

theorem mem_insertByLen {a x : String} {l : List String} :
    a ∈ insertByLen x l ↔ a = x ∨ a ∈ l := by
  rw [(perm_insertByLen x l).mem_iff, List.mem_cons]

theorem sorted_insertByLen (x : String) (l : List String)
    (h : l.Pairwise (fun a b => strLen b ≤ strLen a)) :
    (insertByLen x l).Pairwise (fun a b => strLen b ≤ strLen a) := by
  induction l with
  | nil => simp [insertByLen]
  | cons y ys ih =>
    rw [List.pairwise_cons] at h
    obtain ⟨hy, hys⟩ := h
    by_cases hle : strLen y ≤ strLen x
    · rw [insertByLen, if_pos hle, List.pairwise_cons]
      refine ⟨?_, ?_⟩
      · intro b hb
        rcases List.mem_cons.mp hb with rfl | hb
        · exact hle
        · exact le_trans (hy b hb) hle
      · rw [List.pairwise_cons]
        exact ⟨hy, hys⟩
    · rw [insertByLen, if_neg hle, List.pairwise_cons]
      refine ⟨?_, ih hys⟩
      intro b hb
      rcases mem_insertByLen.mp hb with rfl | hb
      · exact le_of_not_le hle
      · exact hy b hb

theorem sorted_sortByLen (l : List String) :
    (sortByLen l).Pairwise (fun a b => strLen b ≤ strLen a) := by
  induction l with
  | nil => simp [sortByLen]
  | cons x xs ih => exact sorted_insertByLen x (sortByLen xs) ih

theorem dedupCSAux_not_seen :
    ∀ (xs seen : List String) (a : String), a ∈ dedupCSAux seen xs → a ∉ seen := by
  intro xs
  induction xs with
  | nil => intro seen a ha; simp [dedupCSAux] at ha
  | cons x rest ih =>
    intro seen a ha
    by_cases hx : x ∈ seen
    · rw [dedupCSAux, if_pos (by simpa using hx)] at ha
      exact ih seen a ha
    · rw [dedupCSAux, if_neg (by simpa using hx)] at ha
      rcases List.mem_cons.mp ha with rfl | ha
      · exact hx
      · intro hmem
        exact ih (x :: seen) a ha (List.mem_cons_of_mem _ hmem)

theorem nodup_dedupCSAux :
    ∀ (xs seen : List String), (dedupCSAux seen xs).Nodup := by
  intro xs
  induction xs with
  | nil => intro seen; simp [dedupCSAux]
  | cons x rest ih =>
    intro seen
    by_cases hx : x ∈ seen
    · rw [dedupCSAux, if_pos (by simpa using hx)]
      exact ih seen
    · rw [dedupCSAux, if_neg (by simpa using hx), List.nodup_cons]
      refine ⟨?_, ih _⟩
      intro hmem
      exact dedupCSAux_not_seen rest (x :: seen) x hmem (List.mem_cons_self _ _)

theorem dedupCSAux_mem :
    ∀ (xs seen : List String) (t : String),
      t ∈ xs → t ∈ seen ∨ t ∈ dedupCSAux seen xs := by
  intro xs
  induction xs with
  | nil => intro seen t ht; simp at ht
  | cons x rest ih =>
    intro seen t ht
    by_cases hx : x ∈ seen
    · rw [dedupCSAux, if_pos (by simpa using hx)]
      rcases List.mem_cons.mp ht with rfl | ht
      · exact Or.inl hx
      · exact ih seen t ht
    · rw [dedupCSAux, if_neg (by simpa using hx)]
      rcases List.mem_cons.mp ht with rfl | ht
      · exact Or.inr (List.mem_cons_self _ _)
      · rcases ih (x :: seen) t ht with hseen | hmem
        · rcases List.mem_cons.mp hseen with rfl | hseen
          · exact Or.inr (List.mem_cons_self _ _)
          · exact Or.inl hseen
        · exact Or.inr (List.mem_cons_of_mem _ hmem)

theorem mergeAliases_sorted (a b : List String) :
    (mergeAliases a b).Pairwise (fun x y => strLen y ≤ strLen x) :=
  sorted_sortByLen _

theorem mergeAliases_nodup (a b : List String) : (mergeAliases a b).Nodup :=
  ((perm_sortByLen (dedupCS (a ++ b))).nodup_iff).mpr (nodup_dedupCSAux (a ++ b) [])

theorem mergeAliases_mem_left {x : String} {a b : List String}
    (h : x ∈ a) : x ∈ mergeAliases a b := by
  rcases dedupCSAux_mem (a ++ b) [] x (List.mem_append_left _ h) with hseen | hmem
  · simp at hseen
  · exact (perm_sortByLen (dedupCS (a ++ b))).mem_iff.mpr hmem

/-- A singleton-class record whose alias list is not sorted longest-first;
the code stores it as-is. -/
def aliasUnsortedModel : ModelInformation :=
  { emptyModel with id := "a", aliases := ["a", "ab"] }

/-- Two same-class records whose ids differ only in letter case. -/
def caseVariantLower : ModelInformation :=
  { emptyModel with id := "m", aliases := ["m"] }

/-- See `caseVariantLower`. -/
def caseVariantUpper : ModelInformation :=
  { emptyModel with id := "M", aliases := ["M"] }

/-- Claim C7, counterexample.  First conjunct: a model alone in its class
is stored as-is, so its alias list is not re-sorted by descending length.
Second conjunct: the alias union is deduplicated case-SENSITIVELY
(`new Set`), so a merged alias list can retain two entries differing only
in letter case. -/
theorem deduplicateModels_alias_counterexample :
    (aliasUnsortedModel.id ∈ aliasUnsortedModel.aliases
      ∧ ∃ c ∈ deduplicateModels [aliasUnsortedModel],
          ¬ c.aliases.Pairwise (fun x y => strLen y ≤ strLen x))
    ∧ (∃ c ∈ deduplicateModels [caseVariantLower, caseVariantUpper],
        ∃ x ∈ c.aliases, ∃ y ∈ c.aliases, x ≠ y ∧ lowerChars x = lowerChars y) := by
  decide

/-- Claim C7 (amended): from inputs whose alias lists contain their own
id, every canonical model's alias list contains the model's id; and the
alias list produced by a class MERGE is deduplicated (case-sensitively,
like `new Set`) and sorted by descending string length.  A model alone in
its class keeps its alias list as given, and case-insensitive
deduplication is not performed. -/
theorem deduplicateModels_alias_invariant (xs : List ModelInformation)
    (hids : ∀ m ∈ xs, m.id ∈ m.aliases) :
    (∀ c ∈ deduplicateModels xs, c.id ∈ c.aliases)
    ∧ (∀ t m : ModelInformation, ∀ f : Bool,
        (mergeModel t m f).aliases.Pairwise (fun x y => strLen y ≤ strLen x)
        ∧ (mergeModel t m f).aliases.Nodup
        ∧ (t.id ∈ t.aliases → (mergeModel t m f).id ∈ (mergeModel t m f).aliases)) := by
  constructor
  · refine dedup_member_invariant (fun c => c.id ∈ c.aliases) xs [] ?_ ?_ (by simp)
    · intro m hm
      unfold preprocessModel
      split
      · simp
      · exact hids m hm
    · intro t m _ ht
      show (mergeModel t (preprocessModel m).1 (preprocessModel m).2).id
        ∈ mergeAliases t.aliases (preprocessModel m).1.aliases
      rw [mergeModel_id]
      exact mergeAliases_mem_left ht
  · intro t m f
    exact ⟨mergeAliases_sorted _ _, mergeAliases_nodup _ _,
      fun ht => by
        show (mergeModel t m f).id ∈ mergeAliases t.aliases m.aliases
        rw [mergeModel_id]
        exact mergeAliases_mem_left ht⟩

theorem deduplicateModels_alias_invariant_witness :
    (∀ m ∈ [flagFalseModel], m.id ∈ m.aliases)
    ∧ flagFalseModel.id ∈ flagFalseModel.aliases :=
  ⟨by decide,
    (deduplicateModels_alias_invariant [flagFalseModel] (by decide)).1
      flagFalseModel (by decide)⟩

/-! ## Idempotence of the deduplicator (claim C8) -/

/-- With ids already canonical (no `":free"` suffix), every output id of
the deduplicator is also canonical. -/
theorem dedup_ids_canonical (xs : List ModelInformation)
    (hcanon : ∀ m ∈ xs, hasFreeSuffix m.id = false) :
    ∀ c ∈ deduplicateModels xs, hasFreeSuffix c.id = false := by
  refine dedup_member_invariant (fun c => hasFreeSuffix c.id = false) xs [] ?_ ?_ (by simp)
  · intro m hm
    rw [preprocess_not_free (hcanon m hm)]
    exact hcanon m hm
  · intro t m _ ht
    rw [mergeModel_id]
    exact ht

theorem insertModel_append (m : ModelInformation) (f : Bool) :
    ∀ (acc : List ModelInformation),
      (∀ t ∈ acc, comparableKey t.id ≠ comparableKey m.id) →
      insertModel acc m f = acc ++ [m] := by
  intro acc
  induction acc with
  | nil => intro _; rfl
  | cons t rest ih =>
    intro h
    rw [insertModel, if_neg (by simp [h t (List.mem_cons_self _ _)])]
    rw [ih (fun t' ht' => h t' (List.mem_cons_of_mem _ ht'))]
    rfl

theorem keys_insertModel (m : ModelInformation) (f : Bool) :
    ∀ (acc : List ModelInformation),
      (insertModel acc m f).map (fun t => comparableKey t.id)
          = acc.map (fun t => comparableKey t.id)
      ∨ ((insertModel acc m f).map (fun t => comparableKey t.id)
          = acc.map (fun t => comparableKey t.id) ++ [comparableKey m.id]
        ∧ ∀ t ∈ acc, comparableKey t.id ≠ comparableKey m.id) := by
  intro acc
  induction acc with
  | nil => exact Or.inr ⟨by simp [insertModel], by simp⟩
  | cons t rest ih =>
    by_cases hkey : (comparableKey t.id == comparableKey m.id) = true
    · left
      rw [insertModel, if_pos hkey]
      simp [mergeModel_id]
    · have hne : comparableKey t.id ≠ comparableKey m.id := by simpa using hkey
      rw [insertModel, if_neg (by simpa using hkey)]
      rcases ih with h | ⟨h, hall⟩
      · left; simp [h]
      · right
        refine ⟨by simp [h], ?_⟩
        intro t' ht'
        rcases List.mem_cons.mp ht' with rfl | ht'
        · exact hne
        · exact hall t' ht'

theorem pairwise_keys_insertModel (m : ModelInformation) (f : Bool)
    (acc : List ModelInformation)
    (h : (acc.map (fun t => comparableKey t.id)).Pairwise (· ≠ ·)) :
    ((insertModel acc m f).map (fun t => comparableKey t.id)).Pairwise (· ≠ ·) := by
  rcases keys_insertModel m f acc with heq | ⟨heq, hall⟩
  · rw [heq]; exact h
  · rw [heq, List.pairwise_append]
    refine ⟨h, by simp, ?_⟩
    intro a ha b hb
    rw [List.mem_singleton] at hb
    subst hb
    rcases List.mem_map.mp ha with ⟨t, ht, rfl⟩
    exact hall t ht

/-- The outputs of the deduplicator have pairwise distinct comparison
keys (the `Map` keys). -/
theorem pairwise_keys_deduplicateModels (xs : List ModelInformation) :
    ((deduplicateModels xs).map (fun t => comparableKey t.id)).Pairwise (· ≠ ·) := by
  suffices h : ∀ (ys acc : List ModelInformation),
      (acc.map (fun t => comparableKey t.id)).Pairwise (· ≠ ·) →
      ((ys.foldl dedupStep acc).map (fun t => comparableKey t.id)).Pairwise (· ≠ ·) by
    exact h xs [] (by simp)
  intro ys
  induction ys with
  | nil => intro acc h; exact h
  | cons m rest ih =>
    intro acc h
    rw [List.foldl_cons]
    exact ih _ (pairwise_keys_insertModel _ _ _ h)

theorem foldl_dedupStep_no_merge :
    ∀ (l acc : List ModelInformation),
      (∀ m ∈ l, hasFreeSuffix m.id = false) →
      (((acc ++ l).map (fun t => comparableKey t.id)).Pairwise (· ≠ ·)) →
      l.foldl dedupStep acc = acc ++ l := by
  intro l
  induction l with
  | nil => intro acc _ _; simp
  | cons m rest ih =>
    intro acc hfree hpair
    rw [List.foldl_cons]
    have hpre : preprocessModel m = (m, false) :=
      preprocess_not_free (hfree m (List.mem_cons_self _ _))
    have hdist : ∀ t ∈ acc, comparableKey t.id ≠ comparableKey m.id := by
      rw [List.map_append, List.pairwise_append] at hpair
      intro t ht
      exact hpair.2.2 (comparableKey t.id) (List.mem_map_of_mem _ ht)
        (comparableKey m.id) (by simp)
    have hstep : dedupStep acc m = acc ++ [m] := by
      rw [dedupStep, hpre]
      exact insertModel_append m false acc hdist
    rw [hstep]
    rw [ih (acc ++ [m])
      (fun m' hm' => hfree m' (List.mem_cons_of_mem _ hm'))
      (by simpa using hpair), List.append_assoc]
    rfl

/-- Claim C8: for every model list whose ids are already canonical (no
free-tier suffix left to strip), deduplicating twice equals deduplicating
once — no further merges occur when an already-deduplicated list is fed
back in, because the output's comparison keys are pairwise distinct and a
key-new model is stored as-is. -/
theorem deduplicateModels_idem (xs : List ModelInformation)
    (hcanon : ∀ m ∈ xs, hasFreeSuffix m.id = false) :
    deduplicateModels (deduplicateModels xs) = deduplicateModels xs := by
  have h1 : ∀ m ∈ deduplicateModels xs, hasFreeSuffix m.id = false :=
    dedup_ids_canonical xs hcanon
  have h3 := pairwise_keys_deduplicateModels xs
  show (deduplicateModels xs).foldl dedupStep [] = deduplicateModels xs
  rw [foldl_dedupStep_no_merge (deduplicateModels xs) [] h1 (by simpa using h3)]
  rfl

theorem deduplicateModels_idem_witness :
    (∀ m ∈ [paidRecordM, flagFalseModel], hasFreeSuffix m.id = false)
    ∧ deduplicateModels (deduplicateModels [paidRecordM, flagFalseModel])
        = deduplicateModels [paidRecordM, flagFalseModel] :=
  ⟨by decide, deduplicateModels_idem [paidRecordM, flagFalseModel] (by decide)⟩

/-! ## Processor base lemmas (claims C1, C2, C5, C10) -/

theorem lookupProc_some :
    ∀ {l : List ProcessedModelInformation} {i : String} {r : ProcessedModelInformation},
      lookupProc l i = some r → r ∈ l ∧ r.id = i := by
  intro l
  induction l with
  | nil => intro i r h; simp [lookupProc] at h
  | cons x rest ih =>
    intro i r h
    by_cases hx : (x.id == i) = true
    · rw [lookupProc, if_pos hx] at h
      obtain rfl : x = r := by simpa using h
      exact ⟨List.mem_cons_self _ _, by simpa using hx⟩
    · rw [lookupProc, if_neg hx] at h
      obtain ⟨hm, hi⟩ := ih h
      exact ⟨List.mem_cons_of_mem _ hm, hi⟩

theorem lookupProc_eq_none {k : String} :
    ∀ {l : List ProcessedModelInformation}, (∀ x ∈ l, x.id ≠ k) → lookupProc l k = none := by
  intro l
  induction l with
  | nil => intro _; rfl
  | cons e rest ih =>
    intro h
    rw [lookupProc, if_neg (by simp [h e (List.mem_cons_self _ _)])]
    exact ih (fun x hx => h x (List.mem_cons_of_mem _ hx))

theorem lookupProc_isSome_of_mem {k : String} :
    ∀ {l : List ProcessedModelInformation} {x : ProcessedModelInformation},
      x ∈ l → x.id = k → (lookupProc l k).isSome = true := by
  intro l
  induction l with
  | nil => intro x hx; simp at hx
  | cons e rest ih =>
    intro x hx hid
    by_cases he : (e.id == k) = true
    · rw [lookupProc, if_pos he]; rfl
    · rw [lookupProc, if_neg he]
      rcases List.mem_cons.mp hx with rfl | hx
      · exact absurd (by simp [hid]) he
      · exact ih hx hid

theorem lookupProc_of_nodup_mem :
    ∀ {l : List ProcessedModelInformation},
      (l.map (fun m => m.id)).Nodup →
      ∀ {p : ProcessedModelInformation}, p ∈ l → lookupProc l p.id = some p := by
  intro l
  induction l with
  | nil => intro _ p hp; simp at hp
  | cons e rest ih =>
    intro hnd p hp
    rw [List.map_cons, List.nodup_cons] at hnd
    rcases List.mem_cons.mp hp with rfl | hp
    · rw [lookupProc, if_pos (by simp)]
    · have hne : (e.id == p.id) = false := by
        simp only [beq_eq_false_iff_ne, ne_eq]
        intro h
        exact hnd.1 (h ▸ List.mem_map_of_mem _ hp)
      rw [lookupProc, if_neg (by simp [hne])]
      exact ih hnd.2 hp

theorem lookup_setEntry_ne {α : Type} {k' k : String} (hne : k' ≠ k) (v : α) :
    ∀ (hs : List (String × α)), lookupEntry (setEntry hs k' v) k = lookupEntry hs k := by
  intro hs
  induction hs with
  | nil => simp [setEntry, lookupEntry, hne]
  | cons e rest ih =>
    by_cases he : (e.fst == k') = true
    · rw [setEntry, if_pos he, lookupEntry, if_neg (by simpa using hne)]
      rw [lookupEntry, if_neg (by simp [show e.fst = k' from by simpa using he, hne])]
    · rw [setEntry, if_neg he]
      by_cases hk : (e.fst == k) = true
      · rw [lookupEntry, if_pos hk, lookupEntry, if_pos hk]
      · rw [lookupEntry, if_neg hk, lookupEntry, if_neg hk]
        exact ih

theorem perm_insertById (x : ProcessedModelInformation)
    (l : List ProcessedModelInformation) : (insertById x l).Perm (x :: l) := by
  induction l with
  | nil => rfl
  | cons y ys ih =>
    by_cases h : strLe y.id x.id = true
    · rw [insertById, if_pos h]
      exact (ih.cons y).trans (List.Perm.swap x y ys)
    · rw [insertById, if_neg h]

theorem perm_sortById (l : List ProcessedModelInformation) : (sortById l).Perm l := by
  induction l with
  | nil => rfl
  | cons x xs ih => exact (perm_insertById x (sortById xs)).trans (ih.cons x)

theorem mem_sortById {a : ProcessedModelInformation} {l : List ProcessedModelInformation} :
    a ∈ sortById l ↔ a ∈ l :=
  (perm_sortById l).mem_iff

theorem runBatchAux_fst_ids {steps : List BatchStep}
    (hBatch : ∀ s ∈ steps, ∀ l, (s l).map (fun m => m.id) = l.map (fun m => m.id)) :
    ∀ (i : Nat) (ms : List ProcessedModelInformation),
      ((runBatchAux i steps ms).1).map (fun m => m.id) = ms.map (fun m => m.id) := by
  induction steps with
  | nil => intro i ms; rfl
  | cons s rest ih =>
    intro i ms
    show ((runBatchAux (i + 1) rest (s ms)).1).map (fun m => m.id) = ms.map (fun m => m.id)
    rw [ih (fun s' hs' => hBatch s' (List.mem_cons_of_mem _ hs')) (i + 1) (s ms)]
    exact hBatch s (List.mem_cons_self _ _) ms

theorem runBatchAux_events_shape :
    ∀ (steps : List BatchStep) (i : Nat) (ms : List ProcessedModelInformation),
      ∀ e ∈ (runBatchAux i steps ms).2, ∃ j ids, e = StepEvent.batchStep j ids := by
  intro steps
  induction steps with
  | nil => intro i ms e he; simp [runBatchAux] at he
  | cons s rest ih =>
    intro i ms e he
    rcases List.mem_cons.mp he with rfl | he'
    · exact ⟨i, ms.map (fun m => m.id), rfl⟩
    · exact ih (i + 1) (s ms) e he'

theorem runBatchAux_events_ids {steps : List BatchStep}
    (hBatch : ∀ s ∈ steps, ∀ l, (s l).map (fun m => m.id) = l.map (fun m => m.id)) :
    ∀ (i : Nat) (ms : List ProcessedModelInformation) (j : Nat) (ids : List String),
      StepEvent.batchStep j ids ∈ (runBatchAux i steps ms).2 →
      ids = ms.map (fun m => m.id) := by
  induction steps with
  | nil => intro i ms j ids h; simp [runBatchAux] at h
  | cons s rest ih =>
    intro i ms j ids h
    rcases List.mem_cons.mp h with heq | h'
    · cases heq
      rfl
    · rw [ih (fun s' hs' => hBatch s' (List.mem_cons_of_mem _ hs')) (i + 1) (s ms) j ids h']
      exact hBatch s (List.mem_cons_self _ _) ms

theorem runBatchAux_events_length :
    ∀ (steps : List BatchStep) (i : Nat) (ms : List ProcessedModelInformation),
      (runBatchAux i steps ms).2.length = steps.length := by
  intro steps
  induction steps with
  | nil => intro i ms; rfl
  | cons s rest ih =>
    intro i ms
    show ((runBatchAux (i + 1) rest (s ms)).2.length) + 1 = rest.length + 1
    rw [ih (i + 1) (s ms)]

theorem setFirstDeprecated_lookup_ne {k' k : String} (hne : k' ≠ k) :
    ∀ l, lookupProc (setFirstDeprecated l k') k = lookupProc l k := by
  intro l
  induction l with
  | nil => rfl
  | cons e rest ih =>
    by_cases he : (e.id == k') = true
    · rw [setFirstDeprecated, if_pos he]
      have hek : (e.id == k) = false := by
        simp only [beq_eq_false_iff_ne, ne_eq]
        intro h
        exact hne ((by simpa using he : e.id = k') ▸ h)
      show lookupProc ({ e with deprecated := true } :: rest) k = lookupProc (e :: rest) k
      rw [lookupProc, lookupProc]
      simp only [hek]
      rw [if_neg (by simp [hek]), if_neg (by simp [hek])]
    · rw [setFirstDeprecated, if_neg he]
      by_cases hk : (e.id == k) = true
      · rw [lookupProc, if_pos hk, lookupProc, if_pos hk]
      · rw [lookupProc, if_neg hk, lookupProc, if_neg hk]
        exact ih

theorem setFirstDeprecated_lookup_self {k : String} :
    ∀ {l : List ProcessedModelInformation} {p : ProcessedModelInformation},
      lookupProc l k = some p →
      lookupProc (setFirstDeprecated l k) k = some { p with deprecated := true } := by
  intro l
  induction l with
  | nil => intro p h; simp [lookupProc] at h
  | cons e rest ih =>
    intro p h
    by_cases he : (e.id == k) = true
    · rw [lookupProc, if_pos he] at h
      obtain rfl : e = p := by simpa using h
      rw [setFirstDeprecated, if_pos he]
      show lookupProc ({ e with deprecated := true } :: rest) k = _
      rw [lookupProc, if_pos (by simpa using he)]
    · rw [lookupProc, if_neg he] at h
      rw [setFirstDeprecated, if_neg he, lookupProc, if_neg he]
      exact ih h

theorem markDeprecated_lookup_not {k : String} :
    ∀ (missing : List String) (l : List ProcessedModelInformation),
      k ∉ missing → lookupProc (markDeprecated l missing) k = lookupProc l k := by
  intro missing
  induction missing with
  | nil => intro l _; rfl
  | cons mid rest ih =>
    intro l hk
    show lookupProc (markDeprecated (setFirstDeprecated l mid) rest) k = _
    rw [ih _ (fun h => hk (List.mem_cons_of_mem _ h)),
      setFirstDeprecated_lookup_ne (fun h => hk (by rw [← h]; exact List.mem_cons_self _ _))]

theorem markDeprecated_lookup_mem {k : String} :
    ∀ (missing : List String) (l : List ProcessedModelInformation)
      (p : ProcessedModelInformation),
      lookupProc l k = some p → k ∈ missing →
      lookupProc (markDeprecated l missing) k = some { p with deprecated := true } := by
  intro missing
  induction missing with
  | nil => intro l p _ hk; simp at hk
  | cons mid rest ih =>
    intro l p hp hk
    show lookupProc (markDeprecated (setFirstDeprecated l mid) rest) k = _
    by_cases hmid : mid = k
    · subst hmid
      have h1 : lookupProc (setFirstDeprecated l mid) mid
          = some { p with deprecated := true } := setFirstDeprecated_lookup_self hp
      by_cases hrest : mid ∈ rest
      · rw [ih _ _ h1 hrest]
      · rw [markDeprecated_lookup_not rest _ hrest]
        exact h1
    · have h1 : lookupProc (setFirstDeprecated l mid) k = some p := by
        rw [setFirstDeprecated_lookup_ne hmid]
        exact hp
      have hk' : k ∈ rest := by
        rcases List.mem_cons.mp hk with h | h
        · exact absurd h.symm hmid
        · exact h
      exact ih _ _ h1 hk'

theorem addBack_mem_mono {x : ProcessedModelInformation} :
    ∀ (l nl : List ProcessedModelInformation), x ∈ nl → x ∈ addBack nl l := by
  intro l
  induction l with
  | nil => intro nl h; exact h
  | cons e rest ih =>
    intro nl h
    show x ∈ addBack (if (lookupProc nl e.id).isSome then nl else nl ++ [e]) rest
    split
    · exact ih nl h
    · exact ih _ (List.mem_append_left _ h)

theorem addBack_k_unique {k : String} {r : ProcessedModelInformation} (hr : r.id = k) :
    ∀ (l acc : List ProcessedModelInformation),
      (∀ x ∈ acc, x.id = k → x = r) → (∃ x ∈ acc, x.id = k) →
      ∀ x ∈ addBack acc l, x.id = k → x = r := by
  intro l
  induction l with
  | nil => intro acc huniq _ x hx; exact huniq x hx
  | cons e rest ih =>
    intro acc huniq hex x hx hxk
    revert hx
    show x ∈ addBack (if (lookupProc acc e.id).isSome then acc else acc ++ [e]) rest → _
    split
    · intro hx
      exact ih acc huniq hex x hx hxk
    · next hnone =>
      intro hx
      have hek : e.id ≠ k := by
        intro h
        obtain ⟨y, hy, hyk⟩ := hex
        exact hnone (h ▸ lookupProc_isSome_of_mem hy hyk)
      refine ih (acc ++ [e]) ?_ ?_ x hx hxk
      · intro z hz hzk
        rcases List.mem_append.mp hz with hz | hz
        · exact huniq z hz hzk
        · rw [List.mem_singleton] at hz
          subst hz
          exact absurd hzk hek
      · obtain ⟨y, hy, hyk⟩ := hex
        exact ⟨y, List.mem_append_left _ hy, hyk⟩

/-- The first catalog entry with a given id is added back (and is the only
output entry with that id) whenever the batch output carries no record
with that id. -/
theorem addBack_char {k : String} :
    ∀ (existing nl : List ProcessedModelInformation) (r : ProcessedModelInformation),
      lookupProc existing k = some r →
      (∀ x ∈ nl, x.id ≠ k) →
      r ∈ addBack nl existing
      ∧ ∀ x ∈ addBack nl existing, x.id = k → x = r := by
  intro existing
  induction existing with
  | nil => intro nl r h; simp [lookupProc] at h
  | cons e rest ih =>
    intro nl r h hnl
    by_cases he : (e.id == k) = true
    · rw [lookupProc, if_pos he] at h
      obtain rfl : e = r := by simpa using h
      have hid : e.id = k := by simpa using he
      have hnone : (lookupProc nl e.id).isSome = false := by
        rw [hid, lookupProc_eq_none hnl]
        rfl
      have hstep : addBack nl (e :: rest) = addBack (nl ++ [e]) rest := by
        show addBack (if (lookupProc nl e.id).isSome then nl else nl ++ [e]) rest = _
        rw [if_neg (by simp [hnone])]
      rw [hstep]
      have huniq : ∀ x ∈ nl ++ [e], x.id = k → x = e := by
        intro x hx hxk
        rcases List.mem_append.mp hx with hx | hx
        · exact absurd hxk (hnl x hx)
        · simpa using hx
      refine ⟨addBack_mem_mono rest _ (List.mem_append_right _ (by simp)), ?_⟩
      exact addBack_k_unique hid rest (nl ++ [e]) huniq
        ⟨e, List.mem_append_right _ (by simp), hid⟩
    · rw [lookupProc, if_neg he] at h
      have hek : e.id ≠ k := by simpa using he
      have hstep : ∀ acc, addBack acc (e :: rest)
          = addBack (if (lookupProc acc e.id).isSome then acc else acc ++ [e]) rest :=
        fun acc => rfl
      rw [hstep]
      split
      · exact ih nl r h hnl
      · refine ih (nl ++ [e]) r h ?_
        intro x hx
        rcases List.mem_append.mp hx with hx | hx
        · exact hnl x hx
        · rw [List.mem_singleton] at hx
          subst hx
          exact hek

theorem outFold_models {steps : List OutputStructureStep}
    (hOut : ∀ s ∈ steps, ∀ st, (s st).models = st.models) :
    ∀ st0 : OutputStructure, (steps.foldl (fun s f => f s) st0).models = st0.models := by
  induction steps with
  | nil => intro st0; rfl
  | cons s rest ih =>
    intro st0
    show (rest.foldl (fun s f => f s) (s st0)).models = st0.models
    rw [ih (fun s' hs' => hOut s' (List.mem_cons_of_mem _ hs')) (s st0)]
    exact hOut s (List.mem_cons_self _ _) st0

theorem runNewSteps_id {steps : List PerModelStep}
    (hPer : ∀ s ∈ steps, ∀ a b w, (s a b w).id = w.id)
    (src : ModelInformation) (ex : Option ProcessedModelInformation) :
    ∀ w, (runNewSteps steps src ex w).id = w.id := by
  induction steps with
  | nil => intro w; rfl
  | cons s rest ih =>
    intro w
    show (runNewSteps rest src ex (s src ex w)).id = w.id
    rw [ih (fun s' hs' => hPer s' (List.mem_cons_of_mem _ hs')) (s src ex w)]
    exact hPer s (List.mem_cons_self _ _) src ex w

theorem runNoChangeSteps_id {steps : List NoChangeStep}
    (hNoCh : ∀ s ∈ steps, ∀ a e, (s a e).id = e.id)
    (src : ModelInformation) :
    ∀ e0, (runNoChangeSteps steps src e0).id = e0.id := by
  induction steps with
  | nil => intro e0; rfl
  | cons s rest ih =>
    intro e0
    show (runNoChangeSteps rest src (s src e0)).id = e0.id
    rw [ih (fun s' hs' => hNoCh s' (List.mem_cons_of_mem _ hs')) (s src e0)]
    exact hNoCh s (List.mem_cons_self _ _) src e0

/-! ### Case equations for `procStep` -/

theorem procStep_not_found {cfg : StepConfig} {now : Option String}
    {existingMarked : List ProcessedModelInformation} {existingIds : List String}
    {st : ProcState} {src : ModelInformation}
    (hcond : src.id ∈ existingIds
      ∧ lookupEntry st.hashes src.id = some (calculateModelHash src))
    (hl : lookupProc existingMarked src.id = none) :
    procStep cfg now existingMarked existingIds st src = st := by
  simp only [procStep, hl]
  rw [if_pos hcond]

theorem procStep_skip {cfg : StepConfig} {now : Option String}
    {existingMarked : List ProcessedModelInformation} {existingIds : List String}
    {st : ProcState} {src : ModelInformation} {e : ProcessedModelInformation}
    (hcond : src.id ∈ existingIds
      ∧ lookupEntry st.hashes src.id = some (calculateModelHash src))
    (hl : lookupProc existingMarked src.id = some e)
    (hne : cfg.noChange.isEmpty = true) :
    procStep cfg now existingMarked existingIds st src = st := by
  simp only [procStep, hl]
  rw [if_pos hcond, if_pos hne]

theorem procStep_refresh {cfg : StepConfig} {now : Option String}
    {existingMarked : List ProcessedModelInformation} {existingIds : List String}
    {st : ProcState} {src : ModelInformation} {e : ProcessedModelInformation}
    (hcond : src.id ∈ existingIds
      ∧ lookupEntry st.hashes src.id = some (calculateModelHash src))
    (hl : lookupProc existingMarked src.id = some e)
    (hne : ¬ cfg.noChange.isEmpty = true) :
    procStep cfg now existingMarked existingIds st src
      = { list := st.list ++ [runNoChangeSteps cfg.noChange src e]
          hashes := st.hashes
          events := st.events
            ++ (List.range cfg.noChange.length).map
                (fun i => StepEvent.noChangeStep i src.id) } := by
  simp only [procStep, hl]
  rw [if_pos hcond, if_neg hne]

theorem procStep_new {cfg : StepConfig} {now : Option String}
    {existingMarked : List ProcessedModelInformation} {existingIds : List String}
    {st : ProcState} {src : ModelInformation}
    (hcond : ¬(src.id ∈ existingIds
      ∧ lookupEntry st.hashes src.id = some (calculateModelHash src))) :
    procStep cfg now existingMarked existingIds st src
      = { list := st.list
            ++ [runNewSteps cfg.newAndChanged src
                  (if src.id ∈ existingIds then lookupProc existingMarked src.id else none)
                  (initialProcessed now src)]
          hashes := setEntry st.hashes src.id (calculateModelHash src)
          events := st.events
            ++ (List.range cfg.newAndChanged.length).map
                (fun i => StepEvent.newChangedStep i src.id) } := by
  simp only [procStep]
  rw [if_neg hcond]

/-! ### Frame lemmas for one loop iteration -/

theorem procStep_hashes_ne {cfg : StepConfig} {now : Option String}
    {existingMarked : List ProcessedModelInformation} {existingIds : List String}
    {st : ProcState} {src : ModelInformation} {k : String} (hk : k ≠ src.id) :
    lookupEntry (procStep cfg now existingMarked existingIds st src).hashes k
      = lookupEntry st.hashes k := by
  by_cases hcond : src.id ∈ existingIds
      ∧ lookupEntry st.hashes src.id = some (calculateModelHash src)
  · cases hl : lookupProc existingMarked src.id with
    | none => rw [procStep_not_found hcond hl]
    | some e =>
      by_cases hne : cfg.noChange.isEmpty = true
      · rw [procStep_skip hcond hl hne]
      · rw [procStep_refresh hcond hl hne]
  · rw [procStep_new hcond]
    exact lookup_setEntry_ne (Ne.symm hk) (calculateModelHash src) st.hashes

theorem procStep_events_shape (cfg : StepConfig) (now : Option String)
    (existingMarked : List ProcessedModelInformation) (existingIds : List String)
    (st : ProcState) (src : ModelInformation) :
    ∃ d, (procStep cfg now existingMarked existingIds st src).events = st.events ++ d
      ∧ ∀ ev ∈ d, (∃ i, ev = StepEvent.noChangeStep i src.id)
          ∨ ∃ i, ev = StepEvent.newChangedStep i src.id := by
  by_cases hcond : src.id ∈ existingIds
      ∧ lookupEntry st.hashes src.id = some (calculateModelHash src)
  · cases hl : lookupProc existingMarked src.id with
    | none =>
      exact ⟨[], by rw [procStep_not_found hcond hl, List.append_nil], by simp⟩
    | some e =>
      by_cases hne : cfg.noChange.isEmpty = true
      · exact ⟨[], by rw [procStep_skip hcond hl hne, List.append_nil], by simp⟩
      · refine ⟨(List.range cfg.noChange.length).map
            (fun i => StepEvent.noChangeStep i src.id), ?_, ?_⟩
        · rw [procStep_refresh hcond hl hne]
        · intro ev hev
          obtain ⟨i, _, rfl⟩ := List.mem_map.mp hev
          exact Or.inl ⟨i, rfl⟩
  · refine ⟨(List.range cfg.newAndChanged.length).map
        (fun i => StepEvent.newChangedStep i src.id), ?_, ?_⟩
    · rw [procStep_new hcond]
    · intro ev hev
      obtain ⟨i, _, rfl⟩ := List.mem_map.mp hev
      exact Or.inr ⟨i, rfl⟩

theorem procStep_list_mem {cfg : StepConfig}
    (hPer : ∀ s ∈ cfg.newAndChanged, ∀ a b w, (s a b w).id = w.id)
    (hNoCh : ∀ s ∈ cfg.noChange, ∀ a e, (s a e).id = e.id)
    (now : Option String) (existingMarked : List ProcessedModelInformation)
    (existingIds : List String) (st : ProcState) (src : ModelInformation) :
    ∀ r ∈ (procStep cfg now existingMarked existingIds st src).list,
      r ∈ st.list ∨ r.id = src.id := by
  intro r hr
  by_cases hcond : src.id ∈ existingIds
      ∧ lookupEntry st.hashes src.id = some (calculateModelHash src)
  · cases hl : lookupProc existingMarked src.id with
    | none =>
      rw [procStep_not_found hcond hl] at hr
      exact Or.inl hr
    | some e =>
      by_cases hne : cfg.noChange.isEmpty = true
      · rw [procStep_skip hcond hl hne] at hr
        exact Or.inl hr
      · rw [procStep_refresh hcond hl hne] at hr
        simp only [List.mem_append, List.mem_singleton] at hr
        rcases hr with hr | rfl
        · exact Or.inl hr
        · refine Or.inr ?_
          rw [runNoChangeSteps_id hNoCh src e]
          exact (lookupProc_some hl).2
  · rw [procStep_new hcond] at hr
    simp only [List.mem_append, List.mem_singleton] at hr
    rcases hr with hr | rfl
    · exact Or.inl hr
    · exact Or.inr (runNewSteps_id hPer src _ (initialProcessed now src))

theorem procStep_unchanged_hashes {cfg : StepConfig} {now : Option String}
    {existingMarked : List ProcessedModelInformation} {existingIds : List String}
    {st : ProcState} {src : ModelInformation}
    (hcond : src.id ∈ existingIds
      ∧ lookupEntry st.hashes src.id = some (calculateModelHash src)) :
    (procStep cfg now existingMarked existingIds st src).hashes = st.hashes := by
  cases hl : lookupProc existingMarked src.id with
  | none => rw [procStep_not_found hcond hl]
  | some e =>
    by_cases hne : cfg.noChange.isEmpty = true
    · rw [procStep_skip hcond hl hne]
    · rw [procStep_refresh hcond hl hne]

theorem procStep_unchanged_no_newchanged {cfg : StepConfig} {now : Option String}
    {existingMarked : List ProcessedModelInformation} {existingIds : List String}
    {st : ProcState} {src : ModelInformation}
    (hcond : src.id ∈ existingIds
      ∧ lookupEntry st.hashes src.id = some (calculateModelHash src)) :
    ∀ i k, StepEvent.newChangedStep i k
        ∈ (procStep cfg now existingMarked existingIds st src).events →
      StepEvent.newChangedStep i k ∈ st.events := by
  intro i k h
  cases hl : lookupProc existingMarked src.id with
  | none =>
    rw [procStep_not_found hcond hl] at h
    exact h
  | some e =>
    by_cases hne : cfg.noChange.isEmpty = true
    · rw [procStep_skip hcond hl hne] at h
      exact h
    · rw [procStep_refresh hcond hl hne] at h
      simp only [List.mem_append] at h
      rcases h with h | h
      · exact h
      · obtain ⟨j, _, hj⟩ := List.mem_map.mp h
        exact absurd hj (by simp)

theorem procStep_unchanged_id (hnc : cfg.noChange = [])
    {now : Option String} {existingMarked : List ProcessedModelInformation}
    {existingIds : List String} {st : ProcState} {src : ModelInformation}
    (hcond : src.id ∈ existingIds
      ∧ lookupEntry st.hashes src.id = some (calculateModelHash src)) :
    procStep cfg now existingMarked existingIds st src = st := by
  cases hl : lookupProc existingMarked src.id with
  | none => exact procStep_not_found hcond hl
  | some e => exact procStep_skip hcond hl (by rw [hnc]; rfl)

/-! ### Fold lemmas over the main per-model loop -/

theorem procFold_ne_key (cfg : StepConfig) (now : Option String)
    (existingMarked : List ProcessedModelInformation) (existingIds : List String)
    {k : String} :
    ∀ (srcs : List ModelInformation) (st0 : ProcState),
      (∀ src ∈ srcs, src.id ≠ k) →
      lookupEntry
          (List.foldl (procStep cfg now existingMarked existingIds) st0 srcs).hashes k
        = lookupEntry st0.hashes k
      ∧ (∀ i, StepEvent.newChangedStep i k
            ∈ (List.foldl (procStep cfg now existingMarked existingIds) st0 srcs).events →
          StepEvent.newChangedStep i k ∈ st0.events)
      ∧ (∀ i, StepEvent.noChangeStep i k
            ∈ (List.foldl (procStep cfg now existingMarked existingIds) st0 srcs).events →
          StepEvent.noChangeStep i k ∈ st0.events) := by
  intro srcs
  induction srcs with
  | nil => exact fun st0 _ => ⟨rfl, fun _ h => h, fun _ h => h⟩
  | cons s rest ih =>
    intro st0 hne
    have hs : s.id ≠ k := hne s (List.mem_cons_self _ _)
    have ih' := ih (procStep cfg now existingMarked existingIds st0 s)
      (fun x hx => hne x (List.mem_cons_of_mem _ hx))
    obtain ⟨d, hd, hds⟩ := procStep_events_shape cfg now existingMarked existingIds st0 s
    rw [List.foldl_cons]
    refine ⟨?_, ?_, ?_⟩
    · rw [ih'.1]
      exact procStep_hashes_ne (Ne.symm hs)
    · intro i h
      have h1 := ih'.2.1 i h
      rw [hd] at h1
      rcases List.mem_append.mp h1 with h2 | h2
      · exact h2
      · rcases hds _ h2 with ⟨j, hj⟩ | ⟨j, hj⟩
        · exact absurd hj (by simp)
        · rw [StepEvent.newChangedStep.injEq] at hj
          exact absurd hj.2 (Ne.symm hs)
    · intro i h
      have h1 := ih'.2.2 i h
      rw [hd] at h1
      rcases List.mem_append.mp h1 with h2 | h2
      · exact h2
      · rcases hds _ h2 with ⟨j, hj⟩ | ⟨j, hj⟩
        · rw [StepEvent.noChangeStep.injEq] at hj
          exact absurd hj.2 (Ne.symm hs)
        · exact absurd hj (by simp)

theorem procFold_ne_key_list {cfg : StepConfig}
    (hPer : ∀ s ∈ cfg.newAndChanged, ∀ a b w, (s a b w).id = w.id)
    (hNoCh : ∀ s ∈ cfg.noChange, ∀ a e, (s a e).id = e.id)
    (now : Option String) (existingMarked : List ProcessedModelInformation)
    (existingIds : List String) {k : String} :
    ∀ (srcs : List ModelInformation) (st0 : ProcState),
      (∀ src ∈ srcs, src.id ≠ k) →
      ∀ r ∈ (List.foldl (procStep cfg now existingMarked existingIds) st0 srcs).list,
        r ∈ st0.list ∨ r.id ≠ k := by
  intro srcs
  induction srcs with
  | nil => exact fun st0 _ r hr => Or.inl hr
  | cons s rest ih =>
    intro st0 hne r hr
    rw [List.foldl_cons] at hr
    rcases ih (procStep cfg now existingMarked existingIds st0 s)
        (fun x hx => hne x (List.mem_cons_of_mem _ hx)) r hr with h1 | h1
    · rcases procStep_list_mem hPer hNoCh now existingMarked existingIds st0 s r h1
          with h2 | h2
      · exact Or.inl h2
      · exact Or.inr (h2 ▸ hne s (List.mem_cons_self _ _))
    · exact Or.inr h1

theorem procFold_events_no_batch (cfg : StepConfig) (now : Option String)
    (existingMarked : List ProcessedModelInformation) (existingIds : List String) :
    ∀ (srcs : List ModelInformation) (st0 : ProcState),
      (∀ e ∈ st0.events, ∀ i l, e ≠ StepEvent.batchStep i l) →
      ∀ e ∈ (List.foldl (procStep cfg now existingMarked existingIds) st0 srcs).events,
        ∀ i l, e ≠ StepEvent.batchStep i l := by
  intro srcs
  induction srcs with
  | nil => exact fun st0 h => h
  | cons s rest ih =>
    intro st0 h0 e he
    rw [List.foldl_cons] at he
    refine ih (procStep cfg now existingMarked existingIds st0 s) ?_ e he
    intro e' he' i l
    obtain ⟨d, hd, hds⟩ := procStep_events_shape cfg now existingMarked existingIds st0 s
    rw [hd] at he'
    rcases List.mem_append.mp he' with h1 | h1
    · exact h0 e' h1 i l
    · rcases hds _ h1 with ⟨j, hj⟩ | ⟨j, hj⟩ <;> (subst hj; simp)

theorem procFold_unchanged (cfg : StepConfig) (now : Option String)
    (existingMarked : List ProcessedModelInformation) (existingIds : List String)
    {c : ModelInformation} (hincl : c.id ∈ existingIds) :
    ∀ (srcs : List ModelInformation) (st0 : ProcState), c ∈ srcs →
      (srcs.map (fun m => m.id)).Nodup →
      lookupEntry st0.hashes c.id = some (calculateModelHash c) →
      lookupEntry
          (List.foldl (procStep cfg now existingMarked existingIds) st0 srcs).hashes c.id
        = some (calculateModelHash c)
      ∧ ∀ i, StepEvent.newChangedStep i c.id
            ∈ (List.foldl (procStep cfg now existingMarked existingIds) st0 srcs).events →
          StepEvent.newChangedStep i c.id ∈ st0.events := by
  intro srcs
  induction srcs with
  | nil => intro st0 hc; simp at hc
  | cons s rest ih =>
    intro st0 hc hnd hh
    rw [List.map_cons, List.nodup_cons] at hnd
    rw [List.foldl_cons]
    rcases List.mem_cons.mp hc with rfl | hc'
    · have hcond : c.id ∈ existingIds
          ∧ lookupEntry st0.hashes c.id = some (calculateModelHash c) := ⟨hincl, hh⟩
      have hrest : ∀ x ∈ rest, x.id ≠ c.id := by
        intro x hx hxk
        exact hnd.1 (hxk ▸ List.mem_map_of_mem _ hx)
      have hne := procFold_ne_key cfg now existingMarked existingIds rest
        (procStep cfg now existingMarked existingIds st0 c) hrest
      refine ⟨?_, ?_⟩
      · rw [hne.1, procStep_unchanged_hashes hcond]
        exact hh
      · intro i h
        exact procStep_unchanged_no_newchanged hcond i c.id (hne.2.1 i h)
    · have hsk : s.id ≠ c.id := by
        intro h
        exact hnd.1 (h ▸ List.mem_map_of_mem _ hc')
      have hh1 : lookupEntry
          (procStep cfg now existingMarked existingIds st0 s).hashes c.id
            = some (calculateModelHash c) := by
        rw [procStep_hashes_ne (Ne.symm hsk)]
        exact hh
      have ih' := ih (procStep cfg now existingMarked existingIds st0 s) hc' hnd.2 hh1
      refine ⟨ih'.1, ?_⟩
      intro i h
      have h1 := ih'.2 i h
      obtain ⟨d, hd, hds⟩ := procStep_events_shape cfg now existingMarked existingIds st0 s
      rw [hd] at h1
      rcases List.mem_append.mp h1 with h2 | h2
      · exact h2
      · rcases hds _ h2 with ⟨j, hj⟩ | ⟨j, hj⟩
        · exact absurd hj (by simp)
        · rw [StepEvent.newChangedStep.injEq] at hj
          exact absurd hj.2.symm hsk

theorem procFold_unchanged_list {cfg : StepConfig} (hnc : cfg.noChange = [])
    (hPer : ∀ s ∈ cfg.newAndChanged, ∀ a b w, (s a b w).id = w.id)
    (now : Option String) (existingMarked : List ProcessedModelInformation)
    (existingIds : List String) {c : ModelInformation} (hincl : c.id ∈ existingIds) :
    ∀ (srcs : List ModelInformation) (st0 : ProcState), c ∈ srcs →
      (srcs.map (fun m => m.id)).Nodup →
      lookupEntry st0.hashes c.id = some (calculateModelHash c) →
      ∀ r ∈ (List.foldl (procStep cfg now existingMarked existingIds) st0 srcs).list,
        r ∈ st0.list ∨ r.id ≠ c.id := by
  have hNoCh : ∀ s ∈ cfg.noChange, ∀ a e, (s a e).id = e.id := by
    intro s hs
    rw [hnc] at hs
    exact absurd hs (List.not_mem_nil s)
  intro srcs
  induction srcs with
  | nil => intro st0 hc; simp at hc
  | cons s rest ih =>
    intro st0 hc hnd hh r hr
    rw [List.map_cons, List.nodup_cons] at hnd
    rw [List.foldl_cons] at hr
    rcases List.mem_cons.mp hc with rfl | hc'
    · have hcond : c.id ∈ existingIds
          ∧ lookupEntry st0.hashes c.id = some (calculateModelHash c) := ⟨hincl, hh⟩
      rw [procStep_unchanged_id hnc hcond] at hr
      have hrest : ∀ x ∈ rest, x.id ≠ c.id := by
        intro x hx hxk
        exact hnd.1 (hxk ▸ List.mem_map_of_mem _ hx)
      exact procFold_ne_key_list hPer hNoCh now existingMarked existingIds rest st0
        hrest r hr
    · have hsk : s.id ≠ c.id := by
        intro h
        exact hnd.1 (h ▸ List.mem_map_of_mem _ hc')
      have hh1 : lookupEntry
          (procStep cfg now existingMarked existingIds st0 s).hashes c.id
            = some (calculateModelHash c) := by
        rw [procStep_hashes_ne (Ne.symm hsk)]
        exact hh
      rcases ih (procStep cfg now existingMarked existingIds st0 s) hc' hnd.2 hh1 r hr
          with h1 | h1
      · rcases procStep_list_mem hPer hNoCh now existingMarked existingIds st0 s r h1
            with h2 | h2
        · exact Or.inl h2
        · exact Or.inr (h2 ▸ hsk)
      · exact Or.inr h1

/-! ### Processor-level helpers -/

theorem processor_events_eq (srcs : List ModelInformation) (struct : OutputStructure)
    (hashes : HashFileStructure) (cfg : StepConfig) (now : Option String) :
    (processor srcs struct hashes cfg now).events
      = (procState srcs struct hashes cfg now).events
        ++ (runBatchAux 0 cfg.batch (procState srcs struct hashes cfg now).list).2 := rfl

theorem processor_hashes_eq (srcs : List ModelInformation) (struct : OutputStructure)
    (hashes : HashFileStructure) (cfg : StepConfig) (now : Option String) :
    (processor srcs struct hashes cfg now).hashes
      = (procState srcs struct hashes cfg now).hashes := rfl

theorem processor_output_models {cfg : StepConfig}
    (hOut : ∀ s ∈ cfg.outputStructure, ∀ st, (s st).models = st.models)
    (srcs : List ModelInformation) (struct : OutputStructure)
    (hashes : HashFileStructure) (now : Option String) :
    (processor srcs struct hashes cfg now).output.models
      = sortById (addBack
          (runBatchAux 0 cfg.batch (procState srcs struct hashes cfg now).list).1
          (markedModels srcs struct)) := by
  show (cfg.outputStructure.foldl (fun (s : OutputStructure) (f : OutputStructureStep) => f s)
      { struct with models := sortById (addBack
          (runBatchAux 0 cfg.batch (procState srcs struct hashes cfg now).list).1
          (markedModels srcs struct)) }).models = _
  rw [outFold_models hOut]

theorem mem_missingIds {k : String} {existingIds sourceIds : List String} :
    k ∈ missingIds existingIds sourceIds ↔ k ∈ existingIds ∧ k ∉ sourceIds := by
  rw [missingIds, List.mem_filter]
  simp

/-- Core of claims C1/C10: an UNCHANGED candidate with no configured
`noChange` steps reuses the persisted record verbatim, and that record is
the only output record with its id (given the step contracts). -/
theorem processor_unchanged_core
    (srcs : List ModelInformation) (struct : OutputStructure)
    (hashes : HashFileStructure) (cfg : StepConfig) (now : Option String)
    (hnodup : (srcs.map (fun m => m.id)).Nodup)
    (c : ModelInformation) (hc : c ∈ srcs)
    (prev : ProcessedModelInformation)
    (hprev : lookupProc struct.models c.id = some prev)
    (hhash : lookupEntry hashes c.id = some (calculateModelHash c))
    (hnc : cfg.noChange = [])
    (hPer : ∀ s ∈ cfg.newAndChanged, ∀ a b w, (s a b w).id = w.id)
    (hBatch : ∀ s ∈ cfg.batch, ∀ l, (s l).map (fun m => m.id) = l.map (fun m => m.id))
    (hOut : ∀ s ∈ cfg.outputStructure, ∀ st, (s st).models = st.models) :
    prev ∈ (processor srcs struct hashes cfg now).output.models
    ∧ ∀ r ∈ (processor srcs struct hashes cfg now).output.models,
        r.id = c.id → r = prev := by
  have hincl : c.id ∈ struct.models.map (fun m => m.id) :=
    (lookupProc_some hprev).2 ▸ List.mem_map_of_mem _ (lookupProc_some hprev).1
  have hnotmiss : c.id ∉ missingIds (struct.models.map (fun m => m.id))
      (srcs.map (fun m => m.id)) := by
    rw [mem_missingIds]
    intro h
    exact h.2 (List.mem_map_of_mem _ hc)
  have hmark : lookupProc (markedModels srcs struct) c.id = some prev := by
    rw [markedModels, markDeprecated_lookup_not _ _ hnotmiss]
    exact hprev
  have hlist : ∀ r ∈ (procState srcs struct hashes cfg now).list, r.id ≠ c.id := by
    intro r hr
    rw [procState] at hr
    rcases procFold_unchanged_list hnc hPer now (markedModels srcs struct)
        (struct.models.map (fun m => m.id)) hincl srcs ⟨[], hashes, []⟩ hc hnodup hhash r hr
      with h | h
    · exact absurd h (List.not_mem_nil r)
    · exact h
  have hbr : ∀ x ∈ (runBatchAux 0 cfg.batch
      (procState srcs struct hashes cfg now).list).1, x.id ≠ c.id := by
    intro x hx h
    have hm : x.id ∈ ((runBatchAux 0 cfg.batch
        (procState srcs struct hashes cfg now).list).1).map (fun m => m.id) :=
      List.mem_map_of_mem _ hx
    rw [runBatchAux_fst_ids hBatch 0, h] at hm
    obtain ⟨r, hr, hrid⟩ := List.mem_map.mp hm
    exact hlist r hr hrid
  have habk := addBack_char (markedModels srcs struct)
    (runBatchAux 0 cfg.batch (procState srcs struct hashes cfg now).list).1 prev hmark hbr
  rw [processor_output_models hOut]
  constructor
  · rw [mem_sortById]
    exact habk.1
  · intro r hr hrid
    rw [mem_sortById] at hr
    exact habk.2 r hr hrid

/-- C1.  For a source model whose id is previously known and whose
canonicalized content hash equals the stored hash (processor.ts:66-78): no
`newAndChanged` step is invoked on it, its stored hash entry is left as it
was, and — when no `noChange` steps are configured and all steps obey the
id/ids-preserving step contract — the previously persisted record for that
id appears verbatim in the output (re-added by processor.ts:97-102). -/
theorem processor_unchanged_skips_enrichment
    (srcs : List ModelInformation) (struct : OutputStructure)
    (hashes : HashFileStructure) (cfg : StepConfig) (now : Option String)
    (hnodup : (srcs.map (fun m => m.id)).Nodup)
    (c : ModelInformation) (hc : c ∈ srcs)
    (prev : ProcessedModelInformation)
    (hprev : lookupProc struct.models c.id = some prev)
    (hhash : lookupEntry hashes c.id = some (calculateModelHash c)) :
    (∀ i, StepEvent.newChangedStep i c.id
        ∉ (processor srcs struct hashes cfg now).events)
    ∧ lookupEntry (processor srcs struct hashes cfg now).hashes c.id
        = lookupEntry hashes c.id
    ∧ (cfg.noChange = [] →
        (∀ s ∈ cfg.newAndChanged, ∀ a b w, (s a b w).id = w.id) →
        (∀ s ∈ cfg.batch, ∀ l, (s l).map (fun m => m.id) = l.map (fun m => m.id)) →
        (∀ s ∈ cfg.outputStructure, ∀ st, (s st).models = st.models) →
        prev ∈ (processor srcs struct hashes cfg now).output.models) := by
  have hincl : c.id ∈ struct.models.map (fun m => m.id) :=
    (lookupProc_some hprev).2 ▸ List.mem_map_of_mem _ (lookupProc_some hprev).1
  have hfold := procFold_unchanged cfg now (markedModels srcs struct)
    (struct.models.map (fun m => m.id)) hincl srcs ⟨[], hashes, []⟩ hc hnodup hhash
  refine ⟨?_, ?_, ?_⟩
  · intro i h
    rw [processor_events_eq] at h
    rcases List.mem_append.mp h with h1 | h1
    · rw [procState] at h1
      exact absurd (hfold.2 i h1) (List.not_mem_nil _)
    · obtain ⟨j, l, hj⟩ := runBatchAux_events_shape cfg.batch 0 _ _ h1
      exact absurd hj (by simp)
  · rw [processor_hashes_eq, procState, hfold.1, hhash]
  · intro hnc hPer hBatch hOut
    exact (processor_unchanged_core srcs struct hashes cfg now hnodup c hc prev hprev
      hhash hnc hPer hBatch hOut).1

/-- C2.  A previously persisted id absent from the source list
(processor.ts:36,45-49): its first catalog record appears in the output
with `deprecated := true` and every other field verbatim (and is the only
output record with that id), no per-model step event carries that id, and
no batch step input contains it — given the id/ids-preserving step
contract. -/
theorem processor_deprecates_missing
    (srcs : List ModelInformation) (struct : OutputStructure)
    (hashes : HashFileStructure) (cfg : StepConfig) (now : Option String)
    (k : String) (habsent : ∀ src ∈ srcs, src.id ≠ k)
    (prev : ProcessedModelInformation)
    (hprev : lookupProc struct.models k = some prev)
    (hPer : ∀ s ∈ cfg.newAndChanged, ∀ a b w, (s a b w).id = w.id)
    (hNoCh : ∀ s ∈ cfg.noChange, ∀ a e, (s a e).id = e.id)
    (hBatch : ∀ s ∈ cfg.batch, ∀ l, (s l).map (fun m => m.id) = l.map (fun m => m.id))
    (hOut : ∀ s ∈ cfg.outputStructure, ∀ st, (s st).models = st.models) :
    ({ prev with deprecated := true }
        ∈ (processor srcs struct hashes cfg now).output.models
      ∧ ∀ r ∈ (processor srcs struct hashes cfg now).output.models,
          r.id = k → r = { prev with deprecated := true })
    ∧ (∀ i, StepEvent.newChangedStep i k ∉ (processor srcs struct hashes cfg now).events
        ∧ StepEvent.noChangeStep i k ∉ (processor srcs struct hashes cfg now).events)
    ∧ (∀ i l, StepEvent.batchStep i l ∈ (processor srcs struct hashes cfg now).events →
        k ∉ l) := by
  have hkmem : k ∈ struct.models.map (fun m => m.id) :=
    (lookupProc_some hprev).2 ▸ List.mem_map_of_mem _ (lookupProc_some hprev).1
  have hknotsrc : k ∉ srcs.map (fun m => m.id) := by
    intro h
    obtain ⟨src, hs, hid⟩ := List.mem_map.mp h
    exact habsent src hs hid
  have hkmiss : k ∈ missingIds (struct.models.map (fun m => m.id))
      (srcs.map (fun m => m.id)) := mem_missingIds.mpr ⟨hkmem, hknotsrc⟩
  have hmark : lookupProc (markedModels srcs struct) k
      = some { prev with deprecated := true } := by
    rw [markedModels]
    exact markDeprecated_lookup_mem _ _ _ hprev hkmiss
  have hfold := procFold_ne_key cfg now (markedModels srcs struct)
    (struct.models.map (fun m => m.id)) srcs ⟨[], hashes, []⟩ habsent
  have hlist : ∀ r ∈ (procState srcs struct hashes cfg now).list, r.id ≠ k := by
    intro r hr
    rw [procState] at hr
    rcases procFold_ne_key_list hPer hNoCh now (markedModels srcs struct)
        (struct.models.map (fun m => m.id)) srcs ⟨[], hashes, []⟩ habsent r hr with h | h
    · exact absurd h (List.not_mem_nil r)
    · exact h
  refine ⟨?_, ?_, ?_⟩
  · have hbr : ∀ x ∈ (runBatchAux 0 cfg.batch
        (procState srcs struct hashes cfg now).list).1, x.id ≠ k := by
      intro x hx h
      have hm : x.id ∈ ((runBatchAux 0 cfg.batch
          (procState srcs struct hashes cfg now).list).1).map (fun m => m.id) :=
        List.mem_map_of_mem _ hx
      rw [runBatchAux_fst_ids hBatch 0, h] at hm
      obtain ⟨r, hr, hrid⟩ := List.mem_map.mp hm
      exact hlist r hr hrid
    have habk := addBack_char (markedModels srcs struct)
      (runBatchAux 0 cfg.batch (procState srcs struct hashes cfg now).list).1
      { prev with deprecated := true } hmark hbr
    rw [processor_output_models hOut]
    constructor
    · rw [mem_sortById]
      exact habk.1
    · intro r hr hrid
      rw [mem_sortById] at hr
      exact habk.2 r hr hrid
  · intro i
    constructor
    · intro h
      rw [processor_events_eq] at h
      rcases List.mem_append.mp h with h1 | h1
      · rw [procState] at h1
        exact absurd (hfold.2.1 i h1) (List.not_mem_nil _)
      · obtain ⟨j, l, hj⟩ := runBatchAux_events_shape cfg.batch 0 _ _ h1
        exact absurd hj (by simp)
    · intro h
      rw [processor_events_eq] at h
      rcases List.mem_append.mp h with h1 | h1
      · rw [procState] at h1
        exact absurd (hfold.2.2 i h1) (List.not_mem_nil _)
      · obtain ⟨j, l, hj⟩ := runBatchAux_events_shape cfg.batch 0 _ _ h1
        exact absurd hj (by simp)
  · intro i l h hkl
    rw [processor_events_eq] at h
    rcases List.mem_append.mp h with h1 | h1
    · rw [procState] at h1
      exact procFold_events_no_batch cfg now (markedModels srcs struct)
        (struct.models.map (fun m => m.id)) srcs ⟨[], hashes, []⟩
        (fun e he => absurd he (List.not_mem_nil e)) _ h1 i l rfl
    · rw [runBatchAux_events_ids hBatch 0 _ i l h1] at hkl
      obtain ⟨r, hr, hrid⟩ := List.mem_map.mp hkl
      exact hlist r hr hrid

/-- C10.  A persisted record that is already `deprecated = true` and whose
model reappears UNCHANGED (matching stored hash, no `noChange` steps
configured): the processor re-adds the record verbatim
(processor.ts:97-102) — it never resets `deprecated` to false, so every
output record with that id still has `deprecated = true`. -/
theorem processor_deprecated_is_permanent
    (srcs : List ModelInformation) (struct : OutputStructure)
    (hashes : HashFileStructure) (cfg : StepConfig) (now : Option String)
    (hnodup : (srcs.map (fun m => m.id)).Nodup)
    (c : ModelInformation) (hc : c ∈ srcs)
    (prev : ProcessedModelInformation)
    (hprev : lookupProc struct.models c.id = some prev)
    (hdep : prev.deprecated = true)
    (hhash : lookupEntry hashes c.id = some (calculateModelHash c))
    (hnc : cfg.noChange = [])
    (hPer : ∀ s ∈ cfg.newAndChanged, ∀ a b w, (s a b w).id = w.id)
    (hBatch : ∀ s ∈ cfg.batch, ∀ l, (s l).map (fun m => m.id) = l.map (fun m => m.id))
    (hOut : ∀ s ∈ cfg.outputStructure, ∀ st, (s st).models = st.models) :
    prev ∈ (processor srcs struct hashes cfg now).output.models
    ∧ ∀ r ∈ (processor srcs struct hashes cfg now).output.models,
        r.id = c.id → r.deprecated = true := by
  have core := processor_unchanged_core srcs struct hashes cfg now hnodup c hc prev hprev
    hhash hnc hPer hBatch hOut
  refine ⟨core.1, ?_⟩
  intro r hr hrid
  rw [core.2 r hr hrid]
  exact hdep

/-! ### Concrete processor runs (claim C5 and witnesses) -/

/-- A minimal source model with id `"m"`. -/
def srcM : ModelInformation :=
  { emptyModel with id := "m", aliases := ["m"], name := "M" }

/-- The persisted catalog record for `"m"`. -/
def prevP : ProcessedModelInformation :=
  { id := "m", aliases := ["m"], name := "M", description := none, input := [],
    output := [], reasoning := none, toolCalling := none, openWeights := none,
    knowledge := none, parameters := [], defaultParameters := [], contextLength := none,
    inputLimit := none, outputLimit := none, providers := [], freeProviders := [],
    deprecated := false, lastImportedAt := none }

/-- A persisted catalog holding exactly `prevP`. -/
def structW : OutputStructure :=
  { models := [prevP], providers := [] }

/-- A stored hash file already holding the current hash of `srcM`, so that
`srcM` is classified UNCHANGED. -/
def hashesW : HashFileStructure :=
  [("m", calculateModelHash srcM)]

/-- A step configuration with one (identity) `noChange` step and one
(identity) batch step. -/
def cfgNC : StepConfig :=
  { newAndChanged := [], noChange := [fun _ e => e], batch := [fun l => l],
    outputStructure := [] }

/-- A step configuration with no `noChange` steps and one (identity) batch
step. -/
def cfgB : StepConfig :=
  { newAndChanged := [], noChange := [], batch := [fun l => l],
    outputStructure := [] }

/-- A deprecated persisted record for `"m"`. -/
def prevDep : ProcessedModelInformation :=
  { prevP with deprecated := true }

/-- A persisted catalog holding exactly the deprecated record. -/
def structDep : OutputStructure :=
  { models := [prevDep], providers := [] }

/-- C5 counterexample: the model `"m"` is classified UNCHANGED in this run
(its id is previously known and its stored hash matches), yet the batch
step receives a list containing `"m"`: with a `noChange` step configured,
processor.ts:71-76 pushes the refreshed UNCHANGED record into
`newModelsList`, and processor.ts:93-95 hand that list to every batch
step.  So a record of an UNCHANGED model IS passed to a batch step. -/
theorem processor_batch_unchanged_counterexample :
    ("m" ∈ structW.models.map (fun m => m.id)
      ∧ lookupEntry hashesW "m" = some (calculateModelHash srcM))
    ∧ StepEvent.batchStep 0 ["m"]
        ∈ (processor [srcM] structW hashesW cfgNC none).events := by
  decide

/-- C5 (amended).  With NO `noChange` steps configured and id/ids-preserving
steps, the invocation log splits into all per-model events followed by
exactly one batch event per configured batch step, and no batch input list
contains the id of an UNCHANGED candidate (previously known id with
matching stored hash).  The unamended claim — that this holds for every
step configuration — is refuted by the counterexample above. -/
theorem processor_batch_once_newchanged
    (srcs : List ModelInformation) (struct : OutputStructure)
    (hashes : HashFileStructure) (cfg : StepConfig) (now : Option String)
    (hnc : cfg.noChange = [])
    (hPer : ∀ s ∈ cfg.newAndChanged, ∀ a b w, (s a b w).id = w.id)
    (hBatch : ∀ s ∈ cfg.batch, ∀ l, (s l).map (fun m => m.id) = l.map (fun m => m.id))
    (hnodup : (srcs.map (fun m => m.id)).Nodup)
    (c : ModelInformation) (hc : c ∈ srcs)
    (hincl : c.id ∈ struct.models.map (fun m => m.id))
    (hhash : lookupEntry hashes c.id = some (calculateModelHash c)) :
    ∃ pm bt, (processor srcs struct hashes cfg now).events = pm ++ bt
      ∧ (∀ e ∈ pm, ∀ i l, e ≠ StepEvent.batchStep i l)
      ∧ bt.length = cfg.batch.length
      ∧ (∀ e ∈ bt, ∃ i l, e = StepEvent.batchStep i l)
      ∧ (∀ i l, StepEvent.batchStep i l ∈ bt → c.id ∉ l) := by
  refine ⟨(procState srcs struct hashes cfg now).events,
    (runBatchAux 0 cfg.batch (procState srcs struct hashes cfg now).list).2,
    processor_events_eq srcs struct hashes cfg now, ?_, ?_, ?_, ?_⟩
  · intro e he
    rw [procState] at he
    exact procFold_events_no_batch cfg now (markedModels srcs struct)
      (struct.models.map (fun m => m.id)) srcs ⟨[], hashes, []⟩
      (fun e' he' => absurd he' (List.not_mem_nil e')) e he
  · exact runBatchAux_events_length cfg.batch 0 _
  · exact runBatchAux_events_shape cfg.batch 0 _
  · intro i l h hcl
    rw [runBatchAux_events_ids hBatch 0 _ i l h] at hcl
    obtain ⟨r, hr, hrid⟩ := List.mem_map.mp hcl
    have hr' : r ∈ (procState srcs struct hashes cfg now).list := hr
    rw [procState] at hr'
    rcases procFold_unchanged_list hnc hPer now (markedModels srcs struct)
        (struct.models.map (fun m => m.id)) hincl srcs ⟨[], hashes, []⟩ hc hnodup hhash
        r hr' with h2 | h2
    · exact absurd h2 (List.not_mem_nil r)
    · exact h2 hrid

theorem processor_batch_once_newchanged_witness :
    (cfgB.noChange = []
      ∧ srcM ∈ [srcM]
      ∧ srcM.id ∈ structW.models.map (fun m => m.id)
      ∧ lookupEntry hashesW srcM.id = some (calculateModelHash srcM))
    ∧ ∃ pm bt, (processor [srcM] structW hashesW cfgB none).events = pm ++ bt
      ∧ (∀ e ∈ pm, ∀ i l, e ≠ StepEvent.batchStep i l)
      ∧ bt.length = cfgB.batch.length
      ∧ (∀ e ∈ bt, ∃ i l, e = StepEvent.batchStep i l)
      ∧ (∀ i l, StepEvent.batchStep i l ∈ bt → srcM.id ∉ l) :=
  ⟨⟨rfl, by decide, by decide, by decide⟩,
    processor_batch_once_newchanged [srcM] structW hashesW cfgB none rfl
      (fun s hs => absurd hs (List.not_mem_nil s))
      (by
        intro s hs l
        simp only [cfgB, List.mem_singleton] at hs
        subst hs
        rfl)
      (by decide) srcM (by decide) (by decide) (by decide)⟩

theorem processor_unchanged_skips_enrichment_witness :
    ((([srcM].map (fun m => m.id)).Nodup
      ∧ srcM ∈ [srcM]
      ∧ lookupProc structW.models srcM.id = some prevP
      ∧ lookupEntry hashesW srcM.id = some (calculateModelHash srcM))
    ∧ (∀ i, StepEvent.newChangedStep i srcM.id
        ∉ (processor [srcM] structW hashesW cfgB none).events))
    ∧ lookupEntry (processor [srcM] structW hashesW cfgB none).hashes srcM.id
        = lookupEntry hashesW srcM.id
    ∧ prevP ∈ (processor [srcM] structW hashesW cfgB none).output.models := by
  have h := processor_unchanged_skips_enrichment [srcM] structW hashesW cfgB none
    (by decide) srcM (by decide) prevP (by decide) (by decide)
  exact ⟨⟨⟨by decide, by decide, by decide, by decide⟩, h.1⟩, h.2.1,
    h.2.2 rfl (fun s hs => absurd hs (List.not_mem_nil s))
      (by
        intro s hs l
        simp only [cfgB, List.mem_singleton] at hs
        subst hs
        rfl)
      (fun s hs => absurd hs (List.not_mem_nil s))⟩

theorem processor_deprecates_missing_witness :
    ((∀ src ∈ ([] : List ModelInformation), src.id ≠ "m")
      ∧ lookupProc structW.models "m" = some prevP)
    ∧ ({ prevP with deprecated := true }
          ∈ (processor [] structW hashesW cfgB none).output.models
        ∧ ∀ r ∈ (processor [] structW hashesW cfgB none).output.models,
            r.id = "m" → r = { prevP with deprecated := true })
    ∧ (∀ i, StepEvent.newChangedStep i "m"
          ∉ (processor [] structW hashesW cfgB none).events
        ∧ StepEvent.noChangeStep i "m"
          ∉ (processor [] structW hashesW cfgB none).events)
    ∧ (∀ i l, StepEvent.batchStep i l
          ∈ (processor [] structW hashesW cfgB none).events → "m" ∉ l) :=
  ⟨⟨fun src hs => absurd hs (List.not_mem_nil src), by decide⟩,
    processor_deprecates_missing [] structW hashesW cfgB none "m"
      (fun src hs => absurd hs (List.not_mem_nil src)) prevP (by decide)
      (fun s hs => absurd hs (List.not_mem_nil s))
      (fun s hs => absurd hs (List.not_mem_nil s))
      (by
        intro s hs l
        simp only [cfgB, List.mem_singleton] at hs
        subst hs
        rfl)
      (fun s hs => absurd hs (List.not_mem_nil s))⟩

theorem processor_deprecated_is_permanent_witness :
    ((([srcM].map (fun m => m.id)).Nodup
      ∧ srcM ∈ [srcM]
      ∧ lookupProc structDep.models srcM.id = some prevDep
      ∧ prevDep.deprecated = true
      ∧ lookupEntry hashesW srcM.id = some (calculateModelHash srcM)
      ∧ cfgB.noChange = [])
    ∧ prevDep ∈ (processor [srcM] structDep hashesW cfgB none).output.models)
    ∧ ∀ r ∈ (processor [srcM] structDep hashesW cfgB none).output.models,
        r.id = srcM.id → r.deprecated = true := by
  have h := processor_deprecated_is_permanent [srcM] structDep hashesW cfgB none
    (by decide) srcM (by decide) prevDep (by decide) (by decide) (by decide) rfl
    (fun s hs => absurd hs (List.not_mem_nil s))
    (by
      intro s hs l
      simp only [cfgB, List.mem_singleton] at hs
      subst hs
      rfl)
    (fun s hs => absurd hs (List.not_mem_nil s))
  exact ⟨⟨⟨by decide, by decide, by decide, by decide, by decide, rfl⟩, h.1⟩, h.2⟩

end HawkiModels
